import Mathlib

/-!
# Substitution cipher with length and checksum framing

A shallow embedding of the class `SimpleSubstitutionCipher` of `Cipher/Cipher.cpp`
(narrow `char` strings) and of `2.7/2.7.cpp` (wide `wchar_t` strings), of the functions of
the programs `2.1`, `2.2`, `2.3`, `2.5` and `2.6` that substitute characters and choose a
table from the time, and of the standard-library functions they call.

A string is a list of code units.  A code unit is the integer value of the C++
character: for `char` (signed on the x86/x64 targets of the program) a value in
`-128 .. 127`, for `wchar_t` the code of the character.  The conversion
`static_cast<unsigned int>(c)` is reduction modulo `2^32` in both cases.

The current time is an argument of the functions that read the clock.  A subscript beyond
the end of a string has no defined value; a function that may evaluate one returns an
`Option`.
-/

namespace Kursovaya

/-- A `std::string` or `std::wstring`: the list of its code units. -/
abbrev Text := List Int

/-- The delimiter character `'|'`. -/
def pipe : Int := 124

/-! ## String literals -/

/-- UTF-8 encoding of a code point, as unsigned bytes. -/
def utf8Bytes (n : Nat) : List Nat :=
  if n < 0x80 then [n]
  else if n < 0x800 then [0xC0 + n / 64, 0x80 + n % 64]
  else if n < 0x10000 then [0xE0 + n / 4096, 0x80 + n / 64 % 64, 0x80 + n % 64]
  else [0xF0 + n / 262144, 0x80 + n / 4096 % 64, 0x80 + n / 64 % 64, 0x80 + n % 64]

/-- The value of a byte stored in a signed `char`. -/
def toChar (b : Nat) : Int :=
  if b < 128 then (b : Int) else (b : Int) - 256

/-- A narrow string literal `"..."`: the bytes of the UTF-8 source file, each a signed `char`. -/
def cstr (s : String) : Text :=
  (s.toList.flatMap (fun c => utf8Bytes c.toNat)).map toChar

/-- A wide string literal `L"..."`: one `wchar_t` per character. -/
def wstr (s : String) : Text :=
  s.toList.map (fun c => (c.toNat : Int))

/-! ## Standard library: exceptions, `to_string`, `stoi`, `find`, `substr` -/

/-- The exceptions `decrypt` can raise. -/
inductive Err
  /-- Thrown as `invalid_argument("Invalid encrypted format")`. -/
  | invalidFormat
  /-- Thrown as `invalid_argument("Decrypted text length mismatch")`. -/
  | lengthMismatch
  /-- Thrown as `invalid_argument("Checksum mismatch")`. -/
  | checksumMismatch
  /-- Thrown by `std::stoi` as `std::invalid_argument` when no conversion can be performed. -/
  | stoiInvalidArgument
  /-- Thrown by `std::stoi` as `std::out_of_range` when the value does not fit an `int`. -/
  | stoiOutOfRange
  deriving DecidableEq, Repr

instance {α : Type} [DecidableEq α] : DecidableEq (Except Err α)
  | .ok a, .ok b => decidable_of_iff (a = b) (by simp)
  | .error a, .error b => decidable_of_iff (a = b) (by simp)
  | .ok _, .error _ => isFalse (by simp)
  | .error _, .ok _ => isFalse (by simp)

/-- The message carried by the exceptions that `decrypt` throws itself. -/
def Err.what : Err → String
  | .invalidFormat => "Invalid encrypted format"
  | .lengthMismatch => "Decrypted text length mismatch"
  | .checksumMismatch => "Checksum mismatch"
  | .stoiInvalidArgument => "stoi"
  | .stoiOutOfRange => "stoi"

/-- Largest value of `int`. -/
def INT_MAX : Int := 2147483647

/-- Smallest value of `int`. -/
def INT_MIN : Int := -2147483648

/-- Conversion of an integer value to `unsigned int`. -/
def toUnsigned (v : Int) : Nat := (v % 4294967296).toNat

/-- Conversion of an `int` to `size_t` (64 bits), as done by the comparison
`ciphertext.length() != length`. -/
def toSizeT (v : Int) : Nat := (v % 18446744073709551616).toNat

/-- Decimal digits of `n`, most significant first, pushed in front of `acc`. -/
def toDigits : Nat → Nat → Text → Text
  | 0, _, acc => acc
  | fuel + 1, n, acc =>
    let acc1 := ((48 + n % 10 : Nat) : Int) :: acc
    if n / 10 = 0 then acc1 else toDigits fuel (n / 10) acc1

/-- The function `std::to_string` (`std::to_wstring`) on an unsigned value. -/
def to_string (n : Nat) : Text := toDigits (n + 1) n []

/-- The predicate `isspace` (for wide characters `iswspace`) in the "C" locale, the one
`strtol` (`wcstol`) uses to skip leading white space. -/
def isspace (c : Int) : Bool := c == 32 || (9 ≤ c && c ≤ 13)

/-- The predicate `isdigit`. -/
def isdigit (c : Int) : Bool := 48 ≤ c && c ≤ 57

/-- Value of a run of decimal digits. -/
def digitsValue (ds : Text) : Int := ds.foldl (fun v d => v * 10 + (d - 48)) 0

/-- The run of decimal digits that `strtol` converts: the longest one that follows the
leading white space and an optional sign character. -/
def digitRun (str : Text) : Text :=
  let s1 := str.dropWhile isspace
  let s2 := if s1.head? == some 45 || s1.head? == some 43 then s1.tail else s1
  s2.takeWhile isdigit

/-- Whether the sign character read by `strtol` is `'-'`. -/
def negative (str : Text) : Bool := (str.dropWhile isspace).head? == some 45

/-- The value `strtol` computes from the sign and the digits. -/
def signedValue (str : Text) : Int :=
  if negative str then - digitsValue (digitRun str) else digitsValue (digitRun str)

/-- The function `std::stoi(str)` (base 10, no position argument): as `strtol`, it skips
leading white space, reads an optional sign and the longest run of digits, and ignores
whatever follows; it throws when there is no digit or the value is outside `int`. -/
def stoi (str : Text) : Except Err Int :=
  if (digitRun str).isEmpty then .error .stoiInvalidArgument
  else if signedValue str < INT_MIN || INT_MAX < signedValue str then .error .stoiOutOfRange
  else .ok (signedValue str)

/-- Index of the first occurrence of `c` in `s`, if any. -/
def findIdx (c : Int) : Text → Option Nat
  | [] => none
  | x :: xs => if x = c then some 0 else (findIdx c xs).map (· + 1)

/-- The method `s.find(c, pos)`: the first index `i ≥ pos` with `s[i] == c`; `none` stands
for `npos`. -/
def find (s : Text) (c : Int) (pos : Nat) : Option Nat :=
  (findIdx c (s.drop pos)).map (· + pos)

/-- The value `firstPipe + 1` in `size_t` arithmetic: `npos + 1` wraps around to `0`. -/
def succPos : Option Nat → Nat
  | none => 0
  | some p => p + 1

/-- The method `s.substr(pos, n)`. -/
def substr (s : Text) (pos n : Nat) : Text := (s.drop pos).take n

/-- The method `s.substr(pos)`. -/
def substrFrom (s : Text) (pos : Nat) : Text := s.drop pos

/-! ## `unordered_map` -/

/-- An `unordered_map` from characters to characters, as an association list in which the
first entry for a key is the current one. -/
abbrev UMap := List (Int × Int)

/-- The assignment `m[k] = v`. -/
def UMap.assign (m : UMap) (k v : Int) : UMap := (k, v) :: m

/-- The lookup `m.find(k)`: the mapped value, `none` for `m.end()`. -/
def UMap.find (m : UMap) (k : Int) : Option Int := List.lookup k m

/-! ## The class `SimpleSubstitutionCipher` -/

/-- The data members of the class. -/
structure SimpleSubstitutionCipher where
  substitutionMap : UMap
  reverseSubstitutionMap : UMap

/-- The filling loop of the constructors:
`for (i = 0; i < alphabet.size(); ++i) { substitutionMap[alphabet[i]] = cipher[i];
reverseSubstitutionMap[cipher[i]] = alphabet[i]; }`. -/
def fillMaps (alphabet cipher : Text) : SimpleSubstitutionCipher :=
  (List.range alphabet.length).foldl
    (fun self i =>
      { substitutionMap := self.substitutionMap.assign (alphabet.getD i 0) (cipher.getD i 0)
        reverseSubstitutionMap :=
          self.reverseSubstitutionMap.assign (cipher.getD i 0) (alphabet.getD i 0) })
    { substitutionMap := [], reverseSubstitutionMap := [] }

/-- The method `calculateChecksum`: the sum of `static_cast<unsigned int>(c)` over the
characters, in `unsigned int` arithmetic. -/
def calculateChecksum (text : Text) : Nat :=
  text.foldl (fun checksum c => (checksum + toUnsigned c) % 4294967296) 0

/-- The substitution loop shared by `encrypt` (with `substitutionMap`) and `decrypt` (with
`reverseSubstitutionMap`): a character found in the map is replaced, any other is kept. -/
def substitute (m : UMap) (text : Text) : Text :=
  text.foldl
    (fun out c =>
      match m.find c with
      | some v => out ++ [v]
      | none => out ++ [c])
    []

/-- The method `encrypt`. -/
def SimpleSubstitutionCipher.encrypt (self : SimpleSubstitutionCipher) (plaintext : Text) :
    Text :=
  let ciphertext := substitute self.substitutionMap plaintext
  let checksum := calculateChecksum ciphertext
  to_string ciphertext.length ++ [pipe] ++ to_string checksum ++ [pipe] ++ ciphertext

/-- The method `decrypt`. -/
def SimpleSubstitutionCipher.decrypt (self : SimpleSubstitutionCipher) (encryptedText : Text) :
    Except Err Text :=
  let firstPipe := find encryptedText pipe 0
  let secondPipe := find encryptedText pipe (succPos firstPipe)
  match firstPipe, secondPipe with
  | some firstPipe, some secondPipe =>
    match stoi (substr encryptedText 0 firstPipe) with
    | .error e => .error e
    | .ok length =>
      match stoi (substr encryptedText (firstPipe + 1) (secondPipe - firstPipe - 1)) with
      | .error e => .error e
      | .ok parsed =>
        let checksum := toUnsigned parsed
        let ciphertext := substrFrom encryptedText (secondPipe + 1)
        if ciphertext.length ≠ toSizeT length then .error .lengthMismatch
        else
          let calculatedChecksum := calculateChecksum ciphertext
          if calculatedChecksum ≠ checksum then .error .checksumMismatch
          else .ok (substitute self.reverseSubstitutionMap ciphertext)
  | _, _ => .error .invalidFormat

/-! ### `Cipher/Cipher.cpp` -/

namespace Cipher

/-- The constant `plaintext` of the constructor. -/
def plaintext : Text :=
  cstr ("ABCDEFGHIJKLMNOPQRSTUVWXYZ" ++
    "АБВГДЕЖЗИЙКЛМНОПРСТУФХЦЧШЩЪЫЬЭЮЯ" ++
    "0123456789")

/-- The constant `ciphertext` of the constructor. -/
def ciphertext : Text :=
  cstr ("NOPQRSTUVWXYZABCDEFGHIJKLM" ++
    "РСТУФХЦЧШЩЪЫЬЭЮЯАБВГДЕЖЗИЙКЛМНОП" ++
    "5678901234")

/-- The constructor `SimpleSubstitutionCipher()`. -/
def new : SimpleSubstitutionCipher := fillMaps plaintext ciphertext

/-- The method `encrypt` of an object built by the constructor. -/
def encrypt (text : Text) : Text := new.encrypt text

/-- The method `decrypt` of an object built by the constructor. -/
def decrypt (encryptedText : Text) : Except Err Text := new.decrypt encryptedText

end Cipher

/-! ### `2.7/2.7.cpp` -/

namespace P27

/-- The constant `alphabet` of the constructor. -/
def alphabet : Text :=
  wstr ("ABCDEFGHIJKLMNOPQRSTUVWXYZabcdefghijklmnopqrstuvwxyz" ++
    "АБВГДЕЖЗИЙКЛМНОПРСТУФХЦЧШЩЪЫЬЭЮЯабвгдежзийклмнопрстуфхцчшщъыьэюя" ++
    "0123456789")

/-- The constant `cipher1` of the constructor. -/
def cipher1 : Text :=
  wstr ("NOPQRSTUVWXYZABCDEFGHIJKLMnopqrstuvwxyzabcdefghijklm" ++
    "РСТУФХЦЧШЩЪЫЬЭЮЯАБВГДЕЖЗИЙКЛМНОПрстуфхцчшщъыьэюяабвгдежзийклмноп" ++
    "5678901234")

/-- The constant `cipher2` of the constructor. -/
def cipher2 : Text :=
  wstr ("ZYXWVUTSRQPONMLKJIHGFEDCBAzyxwvutsrqponmlkjihgfedcba" ++
    "ЯЮЭЬЫЪЩШЧЦХФУТСРПОНМЛКИЙЗЖЕДГВБАяюэьыъщшчцхфутсрпонмлкийзжедгвба" ++
    "9876543210")

/-- The constant `cipher3` of the constructor. -/
def cipher3 : Text :=
  wstr ("ZYXWVUTSRQPONMLKJIHGFEDCBAzyxwvutsrqponmlkjihgfedcba" ++
    "ЯЮЭЬЫЪЩШЧЦХФУТСРПОНМЛКЙИЗЖЕДГВБАяюэьыъщшчцхфутсрпонмлкйизжедгвба" ++
    "9876543210")

/-- The local variable `cipher` of the constructor after the selection by `cipherType`;
`none` is the branch that reports "Invalid cipher type" and returns. -/
def cipher (cipherType : Int) : Option Text :=
  if cipherType = 1 then some cipher1
  else if cipherType = 2 then some cipher2
  else if cipherType = 3 then some cipher3
  else none

/-- The constructor `SimpleSubstitutionCipher(int cipherType)`: an invalid type leaves both
maps empty. -/
def new (cipherType : Int) : SimpleSubstitutionCipher :=
  match cipher cipherType with
  | some cipher => fillMaps alphabet cipher
  | none => { substitutionMap := [], reverseSubstitutionMap := [] }

/-- The method `encrypt` of an object built with `cipherType`. -/
def encrypt (cipherType : Int) (text : Text) : Text := (new cipherType).encrypt text

/-- The method `decrypt` of an object built with `cipherType`. -/
def decrypt (cipherType : Int) (encryptedText : Text) : Except Err Text :=
  (new cipherType).decrypt encryptedText

end P27

/-! ## Characters, subscripts and time -/

/-- The expression `s[pos]` on a string: the character at `pos` when `pos < s.size()`, the
null character when `pos == s.size()`, and undefined behaviour (`none`) beyond. -/
def subscript (s : Text) (pos : Nat) : Option Int :=
  if pos < s.length then s[pos]?
  else if pos = s.length then some 0
  else none

/-- The implicit conversion of a `char` to `wchar_t` (16 bits, unsigned, on the Windows
target of the programs). -/
def charToWchar (c : Int) : Int := c % 65536

/-- The implicit conversion of a `wchar_t` to `char`: its low byte, as a signed `char`. -/
def wcharToChar (w : Int) : Int := toChar (w % 256).toNat

/-- A loop that produces one character for each character of `text`, by a step that may
have no defined result: the whole loop then has none. -/
def mapChars (step : Int → Option Int) : Text → Option Text
  | [] => some []
  | c :: cs =>
    match step c, mapChars step cs with
    | some x, some xs => some (x :: xs)
    | _, _ => none

/-- The fields of `struct tm` that the programs read. -/
structure Tm where
  /-- Minutes after the hour, `0 .. 59`. -/
  tm_min : Int
  /-- Months since January, `0 .. 11`. -/
  tm_mon : Int
  /-- Days since Sunday, `0 .. 6`. -/
  tm_wday : Int

/-- The function `toupper` in the "C" locale; a value that is not a lower-case Latin letter
is returned as it is. -/
def toupper (c : Int) : Int := if 97 ≤ c ∧ c ≤ 122 then c - 32 else c

/-! ### `2.1/2.1.cpp` -/

namespace P21

/-- The constant `alphabet`. -/
def alphabet : Text :=
  wstr ("ABCDEFGHIJKLMNOPQRSTUVWXYZabcdefghijklmnopqrstuvwxyz" ++
    "АБВГДЕЁЖЗИЙКЛМНОПРСТУФХЦЧШЩЪЫЬЭЮЯабвгдеёжзийклмнопрстуфхцчшщъыьэюя" ++
    "0123456789")

/-- The constant `cipher1`. -/
def cipher1 : Text :=
  wstr ("NOPQRSTUVWXYZABCDEFGHIJKLMnopqrstuvwxyzabcdefghijklm" ++
    "РСТУФХЦЧШЩЪЫЬЭЮЯАБВГДЕЁЖЗИЙКЛМНОПрстуфхцчшщъыьэюяабвгдеёжзийклмноп" ++
    "5678901234")

/-- The constant `cipher2`. -/
def cipher2 : Text :=
  wstr ("ZYXWVUTSRQPONMLKJIHGFEDCBAzyxwvutsrqponmlkjihgfedcba" ++
    "ЯЮЭЬЫЪЩШЧЦХФУТСРПОНМЛКЙИЗЖЕДГВБАяюэьыъщшчцхфутсрпонмлкийзжедгвба" ++
    "9876543210")

/-- The constant `cipher3`, a copy of `cipher2`. -/
def cipher3 : Text := cipher2

/-- The body of the loop of `encrypt` for one character `c` of the narrow text: the position
of `c` (converted to `wchar_t`) in `alphabet` selects `cipher[pos]`, which is converted back
to `char`; a character that is not found is kept. -/
def encryptChar (cipher : Text) (c : Int) : Option Int :=
  match find alphabet (charToWchar c) 0 with
  | some pos => (subscript cipher pos).map wcharToChar
  | none => some c

/-- The function `encrypt(text, cipher)`; `none` when a subscript leaves the table. -/
def encrypt (text : Text) (cipher : Text) : Option Text :=
  text.foldl
    (fun encrypted_text c =>
      match encrypted_text, encryptChar cipher c with
      | some encrypted_text, some x => some (encrypted_text ++ [x])
      | _, _ => none)
    (some [])

end P21

/-! ### `2.3/2.3.cpp` -/

namespace P23

/-- The constant `alphabet`. -/
def alphabet : Text :=
  wstr ("ABCDEFGHIJKLMNOPQRSTUVWXYZabcdefghijklmnopqrstuvwxyz" ++
    "АБВГДЕЁЖЗИЙКЛМНОПРСТУФХЦЧШЩЪЫЬЭЮЯабвгдеёжзийклмнопрстуфхцчшщъыьэюя" ++
    "0123456789")

/-- The constant `cipher1`. -/
def cipher1 : Text :=
  wstr ("NOPQRSTUVWXYZABCDEFGHIJKLMnopqrstuvwxyzabcdefghijklm" ++
    "РСТУФХЦЧШЩЪЫЬЭЮЯАБВГДЕЁЖЗИЙКЛМНОПрстуфхцчшщъыьэюяабвгдеёжзийклмноп" ++
    "5678901234")

/-- The constant `cipher2`. -/
def cipher2 : Text :=
  wstr ("ZYXWVUTSRQPONMLKJIHGFEDCBAzyxwvutsrqponmlkjihgfedcba" ++
    "ЯЮЭЬЫЪЩШЧЦХФУТСРПОНМЛКЙИЗЖЕДГВБАяюэьыъщшчцхфутсрпонмлкийзжедгвба" ++
    "9876543210")

/-- The constant `cipher3`, a copy of `cipher2`. -/
def cipher3 : Text := cipher2

/-- The body of the loop of `encrypt` for one character `c` of the narrow text: the position
of `c` (converted to `wchar_t`) in `alphabet` selects `cipher[pos]`, which is converted back
to `char`; a character that is not found is kept. -/
def encryptChar (cipher : Text) (c : Int) : Option Int :=
  match find alphabet (charToWchar c) 0 with
  | some pos => (subscript cipher pos).map wcharToChar
  | none => some c

/-- The function `encrypt(text, cipher)`; `none` when a subscript leaves the table. -/
def encrypt (text : Text) (cipher : Text) : Option Text :=
  text.foldl
    (fun encrypted_text c =>
      match encrypted_text, encryptChar cipher c with
      | some encrypted_text, some x => some (encrypted_text ++ [x])
      | _, _ => none)
    (some [])

end P23

/-! ### `2.2/2.2.cpp` -/

namespace P22

/-- The constant `alphabet_upper`. -/
def alphabet_upper : Text := cstr "АБВГДЕЖЗИЙКЛМНОПРСТУФХЦЧШЩЪЫЬЭЮЯ"

/-- The constant `encrypted_upper`. -/
def encrypted_upper : Text := cstr "НОПРСТУФХЦЧШЩЪЫЬЭЮЯАБВГДЕЖЗИЙКЛМ"

/-- The constant `alphabet_lower`. -/
def alphabet_lower : Text := cstr "абвгдеёжзийклмнопрстуфхцчшщъыьэюя"

/-- The constant `encrypted_lower`. -/
def encrypted_lower : Text := cstr "нопртсуфхцчшщъыьэюяабвгдеёжзийклм"

/-- The constant `digits`. -/
def digits : Text := cstr "0123456789"

/-- The constant `encrypted_digits`. -/
def encrypted_digits : Text := cstr "5678901234"

/-- The body of the loop of `encrypt_211` for one character. -/
def step_211 (c : Int) : Option Int :=
  if isdigit c then some ((c - 48 + 9).tmod 10 + 48)
  else
    match find alphabet_upper (toupper c) 0 with
    | some pos => subscript encrypted_upper pos
    | none =>
      match find alphabet_lower c 0 with
      | some pos => subscript encrypted_lower pos
      | none => some c

/-- The body of the loop of `encrypt_212` for one character. -/
def step_212 (c : Int) : Option Int :=
  if isdigit c then some ((c - 48 + 1).tmod 10 + 48)
  else
    match find alphabet_upper (toupper c) 0 with
    | some pos => subscript encrypted_upper (alphabet_upper.length - 1 - pos)
    | none =>
      match find alphabet_lower c 0 with
      | some pos => subscript encrypted_lower (alphabet_lower.length - 1 - pos)
      | none => some c

/-- The body of the loop of `encrypt_213` for one character. -/
def step_213 (c : Int) : Option Int :=
  if isdigit c then some ((c - 48 + 9).tmod 10 + 48)
  else
    match find alphabet_upper (toupper c) 0 with
    | some pos => subscript encrypted_upper (alphabet_upper.length - 1 - pos)
    | none =>
      match find alphabet_lower c 0 with
      | some pos => subscript encrypted_lower (alphabet_lower.length - 1 - pos)
      | none => some c

/-- The function `encrypt_211`: every character of a copy of `text` is replaced in place. -/
def encrypt_211 (text : Text) : Option Text := mapChars step_211 text

/-- The function `encrypt_212`. -/
def encrypt_212 (text : Text) : Option Text := mapChars step_212 text

/-- The function `encrypt_213`. -/
def encrypt_213 (text : Text) : Option Text := mapChars step_213 text

/-- The function `encrypt_dynamic`, with the value `now` of `system_clock::now()` given in
ticks of the clock and `ticksPerHour` the number of ticks in one hour: `hours` is `now`
truncated to whole hours, `hour` is the whole number of hours in `now - hours`. -/
def encrypt_dynamic (ticksPerHour now : Int) (text : Text) : Option Text :=
  let hours := now.tdiv ticksPerHour
  let hour := (now - hours * ticksPerHour).tdiv ticksPerHour
  if hour.tmod 2 = 0 then encrypt_212 text else encrypt_213 text

/-- The function `encrypt_by_month`, with the result of `localtime` given. -/
def encrypt_by_month (time_info : Tm) (text : Text) : Option Text :=
  if (time_info.tm_mon + 1).tmod 2 = 0 then encrypt_213 text else encrypt_211 text

/-- The function `encrypt_by_day_of_week`, with the result of `localtime` given. -/
def encrypt_by_day_of_week (time_info : Tm) (text : Text) : Option Text :=
  if 1 ≤ time_info.tm_wday ∧ time_info.tm_wday ≤ 5 then encrypt_211 text else encrypt_212 text

end P22

/-! ### `2.5/2.5.cpp` -/

namespace P25

/-- The local constant `alphabet` of `encryptWithSimpleSubstitution`. -/
def alphabet : Text :=
  wstr ("ABCDEFGHIJKLMNOPQRSTUVWXYZabcdefghijklmnopqrstuvwxyz" ++
    "АБВГДЕЖЗИЙКЛМНОПРСТУФХЦЧШЩЪЫЬЭЮЯабвгдежзийклмнопрстуфхцчшщъыьэюя" ++
    "0123456789")

/-- The local constant `cipher1` of `encryptWithSimpleSubstitution`. -/
def cipher1 : Text :=
  wstr ("NOPQRSTUVWXYZABCDEFGHIJKLMnopqrstuvwxyzabcdefghijklm" ++
    "РСТУФХЦЧШЩЪЫЬЭЮЯАБВГДЕЖЗИЙКЛМНОПрстуфхцчшщъыьэюяабвгдежзийклмноп" ++
    "5678901234")

/-- The local constant `cipher2` of `encryptWithSimpleSubstitution`. -/
def cipher2 : Text :=
  wstr ("ZYXWVUTSRQPONMLKJIHGFEDCBAzyxwvutsrqponmlkjihgfedcba" ++
    "ЯЮЭЬЫЪЩШЧЦХФУТСРПОНМЛКИЙЗЖЕДГВБАяюэьыъщшчцхфутсрпонмлкийзжедгвба" ++
    "9876543210")

/-- The local constant `cipher3` of `encryptWithSimpleSubstitution`. -/
def cipher3 : Text :=
  wstr ("ZYXWVUTSRQPONMLKJIHGFEDCBAzyxwvutsrqponmlkjihgfedcba" ++
    "ЯЮЭЬЫЪЩШЧЦХФУТСРПОНМЛКЙИЗЖЕДГВБАяюэьыъщшчцхфутсрпонмлкйизжедгвба" ++
    "9876543210")

/-- The function `selectCipher`, with the outcome of `localtime_s` given: its error code
`err` and the time `now` it stores; `none` is the `std::runtime_error` thrown when `err` is
not zero. -/
def selectCipher (err : Int) (now : Tm) (alphabet cipher1 cipher2 cipher3 : Text) :
    Option Text :=
  if err ≠ 0 then none
  else if now.tm_wday = 0 ∨ now.tm_wday = 6 then some cipher2
  else if now.tm_mon.tmod 2 = 0 then some cipher3
  else some cipher1

end P25

/-! ### `2.6/2.6/2.6.cpp` -/

namespace P26

/-- The local constant `plain` of `getSubstitutionTable`. -/
def plain : Text :=
  wstr ("ABCDEFGHIJKLMNOPQRSTUVWXYZabcdefghijklmnopqrstuvwxyz" ++
    "АБВГДЕЁЖЗИЙКЛМНОПРСТУФХЦЧШЩЪЫЬЭЮЯабвгдеёжзийклмнопрстуфхцчшщъыьэюя" ++
    "0123456789")

/-- The local constant `cipher_even` of `getSubstitutionTable`. -/
def cipher_even : Text :=
  wstr ("NOPQRSTUVWXYZABCDEFGHIJKLMnopqrstuvwxyzabcdefghijklm" ++
    "РСТУФХЦЧШЩЪЫЬЭЮЯАБВГДЕЁЖЗИЙКЛМНОПабвгдеёжзийклмнопрстуфхцчшщъыьэюя" ++
    "5678901234")

/-- The local constant `cipher_odd` of `getSubstitutionTable`. -/
def cipher_odd : Text :=
  wstr ("ZYXWVUTSRQPONMLKJIHGFEDCBAzyxwvutsrqponmlkjihgfedcba" ++
    "ЯЮЭЬЫЪЩШЧЦХФУТСРПОНМЛКИЙЗЖЁЕДГВБАяюэьыъщшчцхфутсронмлкийзжёедгвба" ++
    "9876543210")

/-- The function `getSubstitutionTable`, with the time `now` stored by `localtime_s` given;
`none` when a subscript leaves a string. -/
def getSubstitutionTable (timeBased : Bool) (now : Tm) : Option UMap :=
  let use_even := if timeBased then decide (now.tm_min.tmod 2 = 0) else true
  let cipher := if use_even then cipher_even else cipher_odd
  (List.range plain.length).foldl
    (fun table i =>
      match table, subscript plain i, subscript cipher i with
      | some table, some p, some x => some (table.assign p x)
      | _, _, _ => none)
    (some [])

end P26

/-- The table is defined and maps `plain[i]` to `cipher[i]` for every `i < plain.size()`. -/
def isTableOf (table : Option UMap) (plain cipher : Text) : Bool :=
  match table with
  | some t => (List.range plain.length).all fun i =>
      (subscript plain i).bind t.find == subscript cipher i
  | none => false

/-! ## Checksums and substitution tables of the programs `2.3`, `2.5` and `2.6` -/

/-- The conversion `static_cast<unsigned char>(v)`. -/
def toUChar (v : Int) : Nat := (v % 256).toNat

namespace P23

/-- The function `calculate_checksum`: `std::accumulate` from `0u` with the step
`sum + static_cast<unsigned char>(c)`, in `unsigned int` arithmetic. -/
def calculate_checksum (text : Text) : Nat :=
  text.foldl (fun sum c => (sum + toUChar c) % 4294967296) 0

end P23

namespace P25

/-- The function `calculateChecksum`: each step adds
`static_cast<unsigned char>(ch) + (static_cast<unsigned char>(ch >> 8) & 0xFF)` to the
`unsigned char` checksum. -/
def calculateChecksum (text : Text) : Nat :=
  text.foldl
    (fun checksum ch => (checksum + (toUChar ch + (toUChar (ch >>> (8 : Nat)) &&& 0xFF))) % 256)
    0

/-- The function `createSubstitutionTable`; `none` when a subscript leaves `cipher`. -/
def createSubstitutionTable (alphabet cipher : Text) : Option UMap :=
  (List.range alphabet.length).foldl
    (fun table i =>
      match table, subscript alphabet i, subscript cipher i with
      | some table, some a, some x => some (table.assign a x)
      | _, _, _ => none)
    (some [])

/-- The substitution loop of `encryptWithSimpleSubstitution`:
`encrypted += (table.count(ch) ? table[ch] : ch)` for every character of `plaintext`. -/
def substitutionLoop (table : UMap) (plaintext : Text) : Text :=
  plaintext.foldl
    (fun encrypted ch =>
      encrypted ++ [match table.find ch with
        | some x => x
        | none => ch])
    []

end P25

namespace P26

/-- The function `calculateChecksum`: each step adds `static_cast<unsigned char>(ch)` to the
`unsigned char` checksum. -/
def calculateChecksum (text : Text) : Nat :=
  text.foldl (fun checksum ch => (checksum + toUChar ch) % 256) 0

end P26

/-- The text with the characters at the positions `i` and `j` exchanged. -/
def swapAt (text : Text) (i j : Nat) : Text :=
  (text.set i (text.getD j 0)).set j (text.getD i 0)

/-! ## Auxiliary definitions used in the statements -/

/-- The image of one character under a map: the mapped value when `m.find(c) != m.end()`,
the character itself otherwise. -/
def replaceChar (m : UMap) (c : Int) : Int := (m.find c).getD c

/-- What `decrypt` does once the input is split into the length field, the checksum field
and the trailing segment. -/
def decodeFields (self : SimpleSubstitutionCipher) (lengthField checksumField tail : Text) :
    Except Err Text :=
  match stoi lengthField with
  | .error e => .error e
  | .ok length =>
    match stoi checksumField with
    | .error e => .error e
    | .ok parsed =>
      if tail.length ≠ toSizeT length then .error .lengthMismatch
      else if calculateChecksum tail ≠ toUnsigned parsed then .error .checksumMismatch
      else .ok (substitute self.reverseSubstitutionMap tail)

/-- A field starts with a number for `strtol`: after any leading white space and at most one
sign character comes a decimal digit. -/
def startsNumber (field : Text) : Bool :=
  match field.dropWhile isspace with
  | [] => false
  | c :: rest =>
    if c = 45 ∨ c = 43 then
      match rest with
      | [] => false
      | d :: _ => isdigit d
    else isdigit c

/-! ## The standard-library functions -/

theorem toDigits_append (fuel n : Nat) (acc : Text) :
    toDigits fuel n acc = toDigits fuel n [] ++ acc := by
  induction fuel generalizing n acc with
  | zero => simp [toDigits]
  | succ k ih =>
    simp only [toDigits]
    split
    · simp
    · rw [ih (n / 10) (_ :: acc), ih (n / 10) [_]]
      simp

theorem toDigits_ne_nil (fuel n : Nat) (acc : Text) : toDigits (fuel + 1) n acc ≠ [] := by
  rw [toDigits_append]
  simp only [toDigits]
  split
  · simp
  · rw [toDigits_append]
    simp

theorem toDigits_isdigit (fuel n : Nat) : ∀ d ∈ toDigits fuel n [], isdigit d = true := by
  induction fuel generalizing n with
  | zero => simp [toDigits]
  | succ k ih =>
    intro d hd
    simp only [toDigits] at hd
    have h48 : isdigit ((48 + n % 10 : Nat) : Int) = true := by
      have : n % 10 < 10 := Nat.mod_lt _ (by decide)
      simp only [isdigit, Bool.and_eq_true, decide_eq_true_eq]
      omega
    split at hd
    · simp only [List.mem_singleton] at hd
      rw [hd]
      exact h48
    · rw [toDigits_append] at hd
      simp only [List.mem_append, List.mem_singleton] at hd
      rcases hd with hd | hd
      · exact ih _ d hd
      · rw [hd]
        exact h48

theorem digitsValue_append (ds : Text) (d : Int) :
    digitsValue (ds ++ [d]) = digitsValue ds * 10 + (d - 48) := by
  simp [digitsValue, List.foldl_append]

theorem digitsValue_toDigits (fuel n : Nat) (h : n < fuel) :
    digitsValue (toDigits fuel n []) = (n : Int) := by
  induction fuel generalizing n with
  | zero => omega
  | succ k ih =>
    simp only [toDigits]
    split
    · rename_i h0
      simp only [digitsValue, List.foldl_cons, List.foldl_nil]
      push_cast
      omega
    · rename_i h0
      rw [toDigits_append, digitsValue_append, ih (n / 10) (by omega)]
      push_cast
      omega

theorem to_string_ne_nil (n : Nat) : to_string n ≠ [] := toDigits_ne_nil n n []

theorem to_string_isdigit (n : Nat) : ∀ d ∈ to_string n, isdigit d = true :=
  toDigits_isdigit (n + 1) n

theorem digitsValue_to_string (n : Nat) : digitsValue (to_string n) = (n : Int) :=
  digitsValue_toDigits (n + 1) n (Nat.lt_succ_self n)

theorem pipe_not_mem_of_isdigit (ds : Text) (h : ∀ d ∈ ds, isdigit d = true) : pipe ∉ ds := by
  intro hp
  have := h pipe hp
  simp [isdigit, pipe] at this

theorem stoi_of_digits (ds : Text) (hne : ds ≠ []) (hd : ∀ d ∈ ds, isdigit d = true) :
    stoi ds =
      if digitsValue ds < INT_MIN ∨ INT_MAX < digitsValue ds then .error .stoiOutOfRange
      else .ok (digitsValue ds) := by
  obtain ⟨c, rest, rfl⟩ := List.exists_cons_of_ne_nil hne
  have hc : isdigit c = true := hd c (by simp)
  have hc2 : 48 ≤ c ∧ c ≤ 57 := by
    simpa [isdigit] using hc
  have hsp : isspace c = false := by
    simp only [isspace, Bool.or_eq_false_iff, beq_eq_false_iff_ne, ne_eq, Bool.and_eq_false_imp,
      decide_eq_true_eq, decide_eq_false_iff_not, not_le]
    omega
  have hdrop : (c :: rest).dropWhile isspace = c :: rest := by
    simp [List.dropWhile, hsp]
  have h45 : ((some c : Option Int) == some 45) = false := by
    simp only [beq_eq_false_iff_ne, ne_eq, Option.some.injEq]
    omega
  have h43 : ((some c : Option Int) == some 43) = false := by
    simp only [beq_eq_false_iff_ne, ne_eq, Option.some.injEq]
    omega
  have htake : (c :: rest).takeWhile isdigit = c :: rest := by
    rw [List.takeWhile_eq_self_iff]
    exact hd
  have hrun : digitRun (c :: rest) = c :: rest := by
    simp only [digitRun, hdrop, List.head?_cons, h45, h43, Bool.or_self, Bool.false_eq_true,
      if_false, htake]
  have hneg : negative (c :: rest) = false := by
    simp only [negative, hdrop, List.head?_cons, h45]
  simp only [stoi, signedValue, hrun, hneg, List.isEmpty_cons, Bool.false_eq_true, if_false,
    Bool.or_eq_true, decide_eq_true_eq]

theorem stoi_to_string (n : Nat) :
    stoi (to_string n) = if INT_MAX < (n : Int) then .error .stoiOutOfRange else .ok (n : Int) := by
  rw [stoi_of_digits _ (to_string_ne_nil n) (to_string_isdigit n), digitsValue_to_string]
  have : ¬ ((n : Int) < INT_MIN) := by
    simp only [INT_MIN]
    omega
  simp [this]

theorem findIdx_append (c : Int) (pre rest : Text) (h : c ∉ pre) :
    findIdx c (pre ++ c :: rest) = some pre.length := by
  induction pre with
  | nil => simp [findIdx]
  | cons x xs ih =>
    have hx : x ≠ c := fun e => h (by simp [e])
    have hxs : c ∉ xs := fun e => h (by simp [e])
    simp [findIdx, hx, ih hxs]

theorem findIdx_eq_none (c : Int) (s : Text) (h : c ∉ s) : findIdx c s = none := by
  induction s with
  | nil => rfl
  | cons x xs ih =>
    have hx : x ≠ c := fun e => h (by simp [e])
    have hxs : c ∉ xs := fun e => h (by simp [e])
    simp [findIdx, hx, ih hxs]

theorem findIdx_some_split (c : Int) (s : Text) (p : Nat) (h : findIdx c s = some p) :
    ∃ pre rest, s = pre ++ c :: rest ∧ c ∉ pre ∧ pre.length = p := by
  induction s generalizing p with
  | nil => simp [findIdx] at h
  | cons x xs ih =>
    simp only [findIdx] at h
    split at h
    · rename_i hx
      refine ⟨[], xs, ?_, by simp, ?_⟩
      · simp [hx]
      · simpa using h
    · rename_i hx
      cases hq : findIdx c xs with
      | none => simp [hq] at h
      | some q =>
        simp only [hq, Option.map_some', Option.some.injEq] at h
        obtain ⟨pre, rest, e, hn, hl⟩ := ih q hq
        refine ⟨x :: pre, rest, by simp [e], ?_, by simp [hl, h]⟩
        simp only [List.mem_cons, not_or]
        exact ⟨fun e2 => hx e2.symm, hn⟩

theorem find_first (d1 rest : Text) (h : pipe ∉ d1) :
    find (d1 ++ pipe :: rest) pipe 0 = some d1.length := by
  simp [find, findIdx_append pipe d1 rest h]

theorem find_second (d1 d2 tail : Text) (h : pipe ∉ d2) :
    find (d1 ++ pipe :: (d2 ++ pipe :: tail)) pipe (d1.length + 1) =
      some (d1.length + 1 + d2.length) := by
  have hdrop : (d1 ++ pipe :: (d2 ++ pipe :: tail)).drop (d1.length + 1) = d2 ++ pipe :: tail := by
    rw [show d1 ++ pipe :: (d2 ++ pipe :: tail) = (d1 ++ [pipe]) ++ (d2 ++ pipe :: tail) by simp]
    exact List.drop_left' (by simp)
  simp only [find, hdrop, findIdx_append pipe d2 tail h, Option.map_some', Option.some.injEq]
  omega

/-- After the split at the first two delimiters `decrypt` works on the three fields. -/
theorem decrypt_fields (self : SimpleSubstitutionCipher) (d1 d2 tail : Text)
    (h1 : pipe ∉ d1) (h2 : pipe ∉ d2) :
    self.decrypt (d1 ++ [pipe] ++ d2 ++ [pipe] ++ tail) = decodeFields self d1 d2 tail := by
  have e : d1 ++ [pipe] ++ d2 ++ [pipe] ++ tail = d1 ++ pipe :: (d2 ++ pipe :: tail) := by simp
  have s1 : substr (d1 ++ pipe :: (d2 ++ pipe :: tail)) 0 d1.length = d1 := by
    simp [substr]
  have s2 : substr (d1 ++ pipe :: (d2 ++ pipe :: tail)) (d1.length + 1)
      (d1.length + 1 + d2.length - d1.length - 1) = d2 := by
    have hdrop : (d1 ++ pipe :: (d2 ++ pipe :: tail)).drop (d1.length + 1) =
        d2 ++ pipe :: tail := by
      rw [show d1 ++ pipe :: (d2 ++ pipe :: tail) = (d1 ++ [pipe]) ++ (d2 ++ pipe :: tail)
        by simp]
      exact List.drop_left' (by simp)
    have hn : d1.length + 1 + d2.length - d1.length - 1 = d2.length := by omega
    simp [substr, hdrop, hn]
  have s3 : substrFrom (d1 ++ pipe :: (d2 ++ pipe :: tail)) (d1.length + 1 + d2.length + 1) =
      tail := by
    rw [show d1 ++ pipe :: (d2 ++ pipe :: tail) = (d1 ++ [pipe] ++ d2 ++ [pipe]) ++ tail
      by simp]
    exact List.drop_left' (by simp only [List.length_append, List.length_singleton])
  rw [e]
  simp only [SimpleSubstitutionCipher.decrypt, find_first d1 _ h1, succPos,
    find_second d1 d2 tail h2, s1, s2, s3, decodeFields]

/-- With fewer than two delimiters the search for one of them fails. -/
theorem decrypt_few_pipes (self : SimpleSubstitutionCipher) (s : Text)
    (h : s.count pipe < 2) : self.decrypt s = .error .invalidFormat := by
  cases h1 : find s pipe 0 with
  | none => simp [SimpleSubstitutionCipher.decrypt, h1, succPos]
  | some p =>
    cases h2 : find s pipe (p + 1) with
    | none => simp [SimpleSubstitutionCipher.decrypt, h1, h2, succPos]
    | some q =>
      exfalso
      have h1a : findIdx pipe s = some p := by
        simpa [find] using h1
      obtain ⟨pre, rest, e, -, hl⟩ := findIdx_some_split pipe s p h1a
      have hdrop : s.drop (p + 1) = rest := by
        rw [e, show pre ++ pipe :: rest = (pre ++ [pipe]) ++ rest by simp]
        exact List.drop_left' (by simp [hl])
      have hmem : pipe ∈ rest := by
        by_contra hn
        have := findIdx_eq_none pipe rest hn
        simp [find, hdrop, this] at h2
      have hc : 0 < rest.count pipe := List.count_pos_iff.mpr hmem
      rw [e] at h
      simp only [List.count_append, List.count_cons_self] at h
      omega

theorem substitute_eq_map (m : UMap) (text : Text) :
    substitute m text = text.map (replaceChar m) := by
  have gen : ∀ (acc : Text),
      text.foldl (fun out c => match m.find c with
        | some v => out ++ [v]
        | none => out ++ [c]) acc = acc ++ text.map (replaceChar m) := by
    induction text with
    | nil => simp
    | cons c cs ih =>
      intro acc
      simp only [List.foldl_cons, List.map_cons]
      rw [ih]
      cases hc : m.find c <;> simp [replaceChar, hc]
  simpa [substitute] using gen []

theorem substitute_length (m : UMap) (text : Text) : (substitute m text).length = text.length := by
  simp [substitute_eq_map]

theorem stoi_range (str : Text) (v : Int) (h : stoi str = .ok v) :
    INT_MIN ≤ v ∧ v ≤ INT_MAX := by
  unfold stoi at h
  by_cases he : (digitRun str).isEmpty = true
  · simp [he] at h
  · by_cases hr : (signedValue str < INT_MIN || INT_MAX < signedValue str) = true
    · simp only [he, hr, Bool.false_eq_true, if_false, if_true] at h
      cases h
    · simp only [he, hr, Bool.false_eq_true, if_false, Except.ok.injEq] at h
      simp only [Bool.or_eq_true, decide_eq_true_eq, not_or, not_lt] at hr
      rw [← h]
      exact hr

theorem digitRun_of_not_startsNumber (field : Text) (h : startsNumber field = false) :
    digitRun field = [] := by
  simp only [startsNumber] at h
  simp only [digitRun]
  split at h
  · rename_i hd
    simp [hd]
  · rename_i c rest hd
    rw [hd]
    split at h
    · rename_i hs
      have hs2 : ((some c : Option Int) == some 45 || (some c : Option Int) == some 43) = true := by
        rcases hs with hs | hs <;> simp [hs]
      simp only [List.head?_cons, hs2, if_true, List.tail_cons]
      split at h
      · simp
      · simp [List.takeWhile, h]
    · rename_i hs
      have hs2 : ((some c : Option Int) == some 45 || (some c : Option Int) == some 43) = false := by
        simp only [not_or] at hs
        simp [hs.1, hs.2]
      simp only [List.head?_cons, hs2, Bool.false_eq_true, if_false]
      simp [List.takeWhile, h]

theorem stoi_of_not_startsNumber (field : Text) (h : startsNumber field = false) :
    stoi field = .error .stoiInvalidArgument := by
  simp [stoi, digitRun_of_not_startsNumber field h]

theorem decodeFields_length_mismatch (self : SimpleSubstitutionCipher) (d1 d2 tail : Text)
    (len k : Int) (hl : stoi d1 = .ok len) (hk : stoi d2 = .ok k)
    (hne : (tail.length : Int) ≠ len) (hmax : tail.length < 2 ^ 63) :
    decodeFields self d1 d2 tail = .error .lengthMismatch := by
  have hr := stoi_range d1 len hl
  simp only [INT_MIN, INT_MAX] at hr
  have hsz : tail.length ≠ toSizeT len := by
    simp only [toSizeT]
    omega
  simp [decodeFields, hl, hk, hsz]

theorem decodeFields_checksum_mismatch (self : SimpleSubstitutionCipher) (d1 d2 tail : Text)
    (len k : Int) (hl : stoi d1 = .ok len) (hk : stoi d2 = .ok k)
    (heq : (tail.length : Int) = len) (hne : calculateChecksum tail ≠ toUnsigned k) :
    decodeFields self d1 d2 tail = .error .checksumMismatch := by
  have hr := stoi_range d1 len hl
  simp only [INT_MIN, INT_MAX] at hr
  have hsz : tail.length = toSizeT len := by
    simp only [toSizeT]
    omega
  simp [decodeFields, hl, hk, hsz, hne]

theorem decodeFields_ok (self : SimpleSubstitutionCipher) (d1 d2 tail out : Text)
    (h : decodeFields self d1 d2 tail = .ok out) :
    out = tail.map (replaceChar self.reverseSubstitutionMap) := by
  unfold decodeFields at h
  split at h
  · cases h
  · split at h
    · cases h
    · split at h
      · cases h
      · split at h
        · cases h
        · simp only [Except.ok.injEq] at h
          rw [← h, substitute_eq_map]

/-! ## The maps built by the constructors -/

theorem UMap.find_assign (m : UMap) (k v c : Int) :
    (m.assign k v).find c = if c = k then some v else m.find c := by
  simp only [UMap.find, UMap.assign, List.lookup_cons]
  by_cases h : c = k
  · simp [h]
  · have : (c == k) = false := by simpa using h
    simp [h, this]

theorem fillMaps_find_none (alphabet cipher : Text) (c : Int) (n : Nat) :
    ((∀ i < n, alphabet.getD i 0 ≠ c) →
      ((List.range n).foldl
        (fun (self : SimpleSubstitutionCipher) i =>
          { substitutionMap := self.substitutionMap.assign (alphabet.getD i 0) (cipher.getD i 0)
            reverseSubstitutionMap :=
              self.reverseSubstitutionMap.assign (cipher.getD i 0) (alphabet.getD i 0) })
        { substitutionMap := [], reverseSubstitutionMap := [] }).substitutionMap.find c = none) ∧
    ((∀ i < n, cipher.getD i 0 ≠ c) →
      ((List.range n).foldl
        (fun (self : SimpleSubstitutionCipher) i =>
          { substitutionMap := self.substitutionMap.assign (alphabet.getD i 0) (cipher.getD i 0)
            reverseSubstitutionMap :=
              self.reverseSubstitutionMap.assign (cipher.getD i 0) (alphabet.getD i 0) })
        { substitutionMap := [], reverseSubstitutionMap := [] }).reverseSubstitutionMap.find c
        = none) := by
  induction n with
  | zero => simp [UMap.find]
  | succ k ih =>
    constructor
    · intro h
      have hk : c ≠ alphabet.getD k 0 := fun e => h k (Nat.lt_succ_self k) e.symm
      simp only [List.range_succ, List.foldl_append, List.foldl_cons, List.foldl_nil,
        UMap.find_assign, hk, if_false]
      exact ih.1 (fun i hi => h i (Nat.lt_succ_of_lt hi))
    · intro h
      have hk : c ≠ cipher.getD k 0 := fun e => h k (Nat.lt_succ_self k) e.symm
      simp only [List.range_succ, List.foldl_append, List.foldl_cons, List.foldl_nil,
        UMap.find_assign, hk, if_false]
      exact ih.2 (fun i hi => h i (Nat.lt_succ_of_lt hi))

theorem getD_ne_of_not_mem (l : Text) (c : Int) (n : Nat) (hn : n ≤ l.length) (h : c ∉ l) :
    ∀ i < n, l.getD i 0 ≠ c := by
  intro i hi e
  have hil : i < l.length := Nat.lt_of_lt_of_le hi hn
  rw [List.getD_eq_getElem l 0 hil] at e
  exact h (e ▸ List.getElem_mem hil)

/-- A character outside the alphabet is not a key of `substitutionMap`. -/
theorem fillMaps_substitutionMap_none (alphabet cipher : Text) (c : Int) (h : c ∉ alphabet) :
    (fillMaps alphabet cipher).substitutionMap.find c = none :=
  (fillMaps_find_none alphabet cipher c alphabet.length).1
    (getD_ne_of_not_mem alphabet c alphabet.length (Nat.le_refl _) h)

/-- A character outside the table is not a key of `reverseSubstitutionMap`. -/
theorem fillMaps_reverseSubstitutionMap_none (alphabet cipher : Text) (c : Int)
    (hlen : alphabet.length ≤ cipher.length) (h : c ∉ cipher) :
    (fillMaps alphabet cipher).reverseSubstitutionMap.find c = none :=
  (fillMaps_find_none alphabet cipher c alphabet.length).2
    (getD_ne_of_not_mem cipher c alphabet.length hlen h)

/-- When the table is a rearrangement of the alphabet and the reverse map undoes the
substitution on the alphabet, it undoes it on every character. -/
theorem fillMaps_replaceChar_inverse (alphabet cipher : Text)
    (hlen : alphabet.length ≤ cipher.length)
    (hsub : ∀ c ∈ cipher, c ∈ alphabet)
    (hinv : ∀ c ∈ alphabet,
      replaceChar (fillMaps alphabet cipher).reverseSubstitutionMap
        (replaceChar (fillMaps alphabet cipher).substitutionMap c) = c)
    (c : Int) :
    replaceChar (fillMaps alphabet cipher).reverseSubstitutionMap
      (replaceChar (fillMaps alphabet cipher).substitutionMap c) = c := by
  by_cases hc : c ∈ alphabet
  · exact hinv c hc
  · have hc2 : c ∉ cipher := fun h => hc (hsub c h)
    simp [replaceChar, fillMaps_substitutionMap_none alphabet cipher c hc,
      fillMaps_reverseSubstitutionMap_none alphabet cipher c hlen hc2]

theorem narrow_replaceChar_inverse (c : Int) :
    replaceChar Cipher.new.reverseSubstitutionMap
      (replaceChar Cipher.new.substitutionMap c) = c :=
  fillMaps_replaceChar_inverse Cipher.plaintext Cipher.ciphertext (by decide!) (by decide!)
    (by decide!) c

theorem wide_replaceChar_inverse (cipherType : Int)
    (ht : cipherType = 1 ∨ cipherType = 2 ∨ cipherType = 3) (c : Int) :
    replaceChar (P27.new cipherType).reverseSubstitutionMap
      (replaceChar (P27.new cipherType).substitutionMap c) = c := by
  rcases ht with rfl | rfl | rfl
  · exact fillMaps_replaceChar_inverse P27.alphabet P27.cipher1 (by decide!) (by decide!)
      (by decide!) c
  · exact fillMaps_replaceChar_inverse P27.alphabet P27.cipher2 (by decide!) (by decide!)
      (by decide!) c
  · exact fillMaps_replaceChar_inverse P27.alphabet P27.cipher3 (by decide!) (by decide!)
      (by decide!) c

/-! ## The checksum -/

theorem toUnsigned_lt (c : Int) : toUnsigned c < 4294967296 := by
  simp only [toUnsigned]
  omega

theorem calculateChecksum_eq_sum (text : Text) :
    calculateChecksum text = (text.map toUnsigned).sum % 4294967296 := by
  have gen : ∀ (acc : Nat), acc < 4294967296 →
      text.foldl (fun checksum c => (checksum + toUnsigned c) % 4294967296) acc =
        (acc + (text.map toUnsigned).sum) % 4294967296 := by
    induction text with
    | nil =>
      intro acc h
      simp only [List.foldl_nil, List.map_nil, List.sum_nil]
      omega
    | cons c cs ih =>
      intro acc _
      simp only [List.foldl_cons, List.map_cons, List.sum_cons]
      rw [ih _ (Nat.mod_lt _ (by decide))]
      omega
  simpa [calculateChecksum] using gen 0 (by decide)

theorem calculateChecksum_replicate (n : Nat) (c : Int) :
    calculateChecksum (List.replicate n c) = n * toUnsigned c % 4294967296 := by
  simp [calculateChecksum_eq_sum]

theorem calculateChecksum_middle_ne (pre post : Text) (x d : Int)
    (hd : toUnsigned d ≠ toUnsigned x) :
    calculateChecksum (pre ++ d :: post) ≠ calculateChecksum (pre ++ x :: post) := by
  rw [calculateChecksum_eq_sum, calculateChecksum_eq_sum]
  simp only [List.map_append, List.map_cons, List.sum_append, List.sum_cons]
  have h1 := toUnsigned_lt d
  have h2 := toUnsigned_lt x
  omega

/-- Replacing one character by one with another `unsigned int` value changes the checksum. -/
theorem calculateChecksum_set_ne (text : Text) (i : Nat) (hi : i < text.length) (d : Int)
    (hd : toUnsigned d ≠ toUnsigned text[i]) :
    calculateChecksum (text.set i d) ≠ calculateChecksum text := by
  have hset : text.set i d = text.take i ++ d :: text.drop (i + 1) := by
    rw [List.set_eq_take_append_cons_drop, if_pos hi]
  have htext : text = text.take i ++ text[i] :: text.drop (i + 1) := by
    rw [← List.drop_eq_getElem_cons hi, List.take_append_drop]
  rw [hset]
  conv_rhs => rw [htext]
  exact calculateChecksum_middle_ne _ _ _ _ hd

/-! ## `decrypt` after `encrypt` -/

theorem pipe_not_mem_to_string (n : Nat) : pipe ∉ to_string n :=
  pipe_not_mem_of_isdigit _ (to_string_isdigit n)

/-- The round trip succeeds as long as the length and the checksum of the ciphertext both
fit an `int`, the type `std::stoi` converts to. -/
theorem decrypt_encrypt_of_bounds (self : SimpleSubstitutionCipher) (text : Text)
    (hinv : ∀ c, replaceChar self.reverseSubstitutionMap
      (replaceChar self.substitutionMap c) = c)
    (hlen : text.length ≤ 2147483647)
    (hsum : calculateChecksum (substitute self.substitutionMap text) ≤ 2147483647) :
    self.decrypt (self.encrypt text) = .ok text := by
  simp only [SimpleSubstitutionCipher.encrypt]
  rw [decrypt_fields self _ _ _ (pipe_not_mem_to_string _) (pipe_not_mem_to_string _)]
  have hl : (substitute self.substitutionMap text).length = text.length := substitute_length _ _
  have h1 : ¬ (INT_MAX < ((substitute self.substitutionMap text).length : Int)) := by
    simp only [INT_MAX, hl]
    omega
  have h2 : ¬ (INT_MAX < (calculateChecksum (substitute self.substitutionMap text) : Int)) := by
    simp only [INT_MAX]
    omega
  have h3 : toSizeT ((substitute self.substitutionMap text).length : Int) =
      (substitute self.substitutionMap text).length := by
    simp only [toSizeT, hl]
    omega
  have h4 : toUnsigned (calculateChecksum (substitute self.substitutionMap text) : Int) =
      calculateChecksum (substitute self.substitutionMap text) := by
    simp only [toUnsigned]
    omega
  have h5 : substitute self.reverseSubstitutionMap (substitute self.substitutionMap text) =
      text := by
    simp only [substitute_eq_map, List.map_map]
    conv_rhs => rw [← List.map_id text]
    apply List.map_congr_left
    intro c _
    exact hinv c
  simp only [decodeFields, stoi_to_string, h1, h2, if_false, h3, h4, ne_eq, not_true_eq_false,
    h5]

/-- When the checksum of the ciphertext exceeds `INT_MAX`, `decrypt` fails inside `std::stoi`
on what `encrypt` wrote, and does so whatever follows the second delimiter. -/
theorem decrypt_out_of_range (self : SimpleSubstitutionCipher) (n k : Nat) (tail : Text)
    (hlen : n ≤ 2147483647) (hsum : 2147483647 < k) :
    self.decrypt (to_string n ++ [pipe] ++ to_string k ++ [pipe] ++ tail) =
      .error .stoiOutOfRange := by
  rw [decrypt_fields self _ _ _ (pipe_not_mem_to_string _) (pipe_not_mem_to_string _)]
  have h1 : ¬ (INT_MAX < (n : Int)) := by
    simp only [INT_MAX]
    omega
  have h2 : INT_MAX < (k : Int) := by
    simp only [INT_MAX]
    omega
  simp only [decodeFields, stoi_to_string, h1, h2, if_false, if_true]

theorem decrypt_encrypt_out_of_range (self : SimpleSubstitutionCipher) (text : Text)
    (hlen : text.length ≤ 2147483647)
    (hsum : 2147483647 < calculateChecksum (substitute self.substitutionMap text)) :
    self.decrypt (self.encrypt text) = .error .stoiOutOfRange := by
  simp only [SimpleSubstitutionCipher.encrypt]
  exact decrypt_out_of_range self _ _ _ (by rw [substitute_length]; exact hlen) hsum

/-- Tamper detection within the range of `int`: replacing one character of the ciphertext
segment by one of another value makes `decrypt` throw "Checksum mismatch". -/
theorem tamper_detected_of_bounds (self : SimpleSubstitutionCipher) (text : Text)
    (i : Nat) (d : Int)
    (hi : i < (substitute self.substitutionMap text).length)
    (hlen : text.length ≤ 2147483647)
    (hsum : calculateChecksum (substitute self.substitutionMap text) ≤ 2147483647)
    (hd : toUnsigned d ≠ toUnsigned (substitute self.substitutionMap text)[i]) :
    self.decrypt
      (to_string (substitute self.substitutionMap text).length ++ [pipe] ++
        to_string (calculateChecksum (substitute self.substitutionMap text)) ++ [pipe] ++
        (substitute self.substitutionMap text).set i d) = .error .checksumMismatch := by
  rw [decrypt_fields self _ _ _ (pipe_not_mem_to_string _) (pipe_not_mem_to_string _)]
  have hl : (substitute self.substitutionMap text).length = text.length := substitute_length _ _
  have h1 : ¬ (INT_MAX < ((substitute self.substitutionMap text).length : Int)) := by
    simp only [INT_MAX, hl]
    omega
  have h2 : ¬ (INT_MAX < (calculateChecksum (substitute self.substitutionMap text) : Int)) := by
    simp only [INT_MAX]
    omega
  have h3 : toSizeT ((substitute self.substitutionMap text).length : Int) =
      (substitute self.substitutionMap text).length := by
    simp only [toSizeT, hl]
    omega
  have h4 : toUnsigned (calculateChecksum (substitute self.substitutionMap text) : Int) =
      calculateChecksum (substitute self.substitutionMap text) := by
    simp only [toUnsigned]
    omega
  have h5 := calculateChecksum_set_ne _ i hi d hd
  simp only [decodeFields, stoi_to_string, h1, h2, if_false, h3, h4, ne_eq, List.length_set,
    not_true_eq_false, h5, not_false_eq_true, if_true]

/-- In `Cipher.cpp` the round trip succeeds on every text whose ciphertext has a length and
a checksum within `int`. -/
theorem narrow_round_trip_of_bounds (text : Text) (hlen : text.length ≤ 2147483647)
    (hsum : calculateChecksum (substitute Cipher.new.substitutionMap text) ≤ 2147483647) :
    Cipher.decrypt (Cipher.encrypt text) = .ok text :=
  decrypt_encrypt_of_bounds Cipher.new text narrow_replaceChar_inverse hlen hsum

/-- In `2.7.cpp` the round trip succeeds, for each cipher type 1, 2, 3, on every text whose
ciphertext has a length and a checksum within `int`. -/
theorem wide_round_trip_of_bounds (cipherType : Int)
    (ht : cipherType = 1 ∨ cipherType = 2 ∨ cipherType = 3) (text : Text)
    (hlen : text.length ≤ 2147483647)
    (hsum : calculateChecksum (substitute (P27.new cipherType).substitutionMap text) ≤
      2147483647) :
    P27.decrypt cipherType (P27.encrypt cipherType text) = .ok text :=
  decrypt_encrypt_of_bounds (P27.new cipherType) text (wide_replaceChar_inverse cipherType ht)
    hlen hsum

/-! ## The claims on the message format -/

/-- C3: for every plaintext, `encrypt` returns the decimal length, `'|'`, the decimal
checksum, `'|'` and the substituted text, where both numbers are taken from the substituted
text (the length is its number of characters, the checksum is `calculateChecksum` of it, not
of the plaintext) and a decimal is a non-empty run of digits with that value; this holds in
`Cipher.cpp` and for every cipher type of `2.7.cpp`, and in `Cipher.cpp`
`encrypt("HELLO123")` is `"8|576|URYYB678"`. -/
theorem encrypt_format :
    (∀ plaintext : Text,
      Cipher.encrypt plaintext =
        to_string (plaintext.map (replaceChar Cipher.new.substitutionMap)).length ++ [pipe] ++
          to_string (calculateChecksum (plaintext.map (replaceChar Cipher.new.substitutionMap)))
          ++ [pipe] ++ plaintext.map (replaceChar Cipher.new.substitutionMap)) ∧
    (∀ (cipherType : Int) (plaintext : Text),
      P27.encrypt cipherType plaintext =
        to_string (plaintext.map (replaceChar (P27.new cipherType).substitutionMap)).length ++
          [pipe] ++
          to_string (calculateChecksum
            (plaintext.map (replaceChar (P27.new cipherType).substitutionMap)))
          ++ [pipe] ++ plaintext.map (replaceChar (P27.new cipherType).substitutionMap)) ∧
    (∀ n : Nat, to_string n ≠ [] ∧ (to_string n).all isdigit = true ∧
      digitsValue (to_string n) = (n : Int)) ∧
    Cipher.encrypt (cstr "HELLO123") = cstr "8|576|URYYB678" := by
  refine ⟨?_, ?_, ?_, by decide!⟩
  · intro plaintext
    simp only [Cipher.encrypt, SimpleSubstitutionCipher.encrypt, substitute_eq_map]
  · intro cipherType plaintext
    simp only [P27.encrypt, SimpleSubstitutionCipher.encrypt, substitute_eq_map]
  · intro n
    refine ⟨to_string_ne_nil n, ?_, digitsValue_to_string n⟩
    rw [List.all_eq_true]
    exact to_string_isdigit n

/-- C4, as the code has it: `decrypt("3|199|BBC")` succeeds with `"OOP"`, the image of the
segment under the reverse map, and not with the segment `"BBC"` itself. -/
theorem decrypt_BBC_is_OOP :
    Cipher.decrypt (cstr "3|199|BBC") = .ok (cstr "OOP") ∧
    Cipher.decrypt (cstr "3|199|BBC") ≠ .ok (cstr "BBC") := by
  decide!

/-- C4, amended: whenever `decrypt` of `Cipher.cpp` succeeds on an input `L|K|tail` (split
at its first two delimiters) it returns `tail` with every character that is a key of
`reverseSubstitutionMap` replaced by its mapped value and every other character kept. -/
theorem decrypt_returns_reverse_image (d1 d2 tail out : Text)
    (h1 : pipe ∉ d1) (h2 : pipe ∉ d2)
    (h : Cipher.decrypt (d1 ++ [pipe] ++ d2 ++ [pipe] ++ tail) = .ok out) :
    out = tail.map (replaceChar Cipher.new.reverseSubstitutionMap) := by
  rw [Cipher.decrypt, decrypt_fields _ d1 d2 tail h1 h2] at h
  exact decodeFields_ok _ d1 d2 tail out h

theorem decrypt_returns_reverse_image_witness :
    Cipher.decrypt (cstr "3" ++ [pipe] ++ cstr "199" ++ [pipe] ++ cstr "BBC") = .ok (cstr "OOP") ∧
    cstr "OOP" = (cstr "BBC").map (replaceChar Cipher.new.reverseSubstitutionMap) :=
  ⟨by decide!,
    decrypt_returns_reverse_image (cstr "3") (cstr "199") (cstr "BBC") (cstr "OOP")
      (by decide!) (by decide!) (by decide!)⟩

/-- C5: an input with fewer than two `'|'` characters makes `decrypt` throw
`invalid_argument("Invalid encrypted format")`, in `Cipher.cpp` and in `2.7.cpp`. -/
theorem decrypt_rejects_few_pipes (s : Text) (h : s.count pipe < 2) :
    Cipher.decrypt s = .error .invalidFormat ∧
    (∀ cipherType : Int, P27.decrypt cipherType s = .error .invalidFormat) ∧
    Err.invalidFormat.what = "Invalid encrypted format" :=
  ⟨decrypt_few_pipes _ s h, fun _ => decrypt_few_pipes _ s h, rfl⟩

theorem decrypt_rejects_few_pipes_witness :
    (cstr "garbage").count pipe < 2 ∧
    Cipher.decrypt (cstr "garbage") = .error .invalidFormat ∧
    (∀ cipherType : Int, P27.decrypt cipherType (cstr "garbage") = .error .invalidFormat) ∧
    Err.invalidFormat.what = "Invalid encrypted format" :=
  ⟨by decide!, decrypt_rejects_few_pipes (cstr "garbage") (by decide!)⟩

/-- C6, as the code has it: a length field with trailing garbage or with leading white
space is accepted (`"3x|199|BBC"` and `" 3|199|BBC"` decode to `"OOP"`), and `"-3|199|BBC"`
is rejected by the length check, not as malformed. -/
theorem decrypt_accepts_lenient_fields :
    Cipher.decrypt (cstr "3x|199|BBC") = .ok (cstr "OOP") ∧
    Cipher.decrypt (cstr " 3|199|BBC") = .ok (cstr "OOP") ∧
    Cipher.decrypt (cstr "-3|199|BBC") = .error .lengthMismatch := by
  decide!

/-- C6, amended: on an input `L|K|tail` (split at its first two delimiters) `decrypt` fails
with the `std::invalid_argument` of `std::stoi` whenever the length field `L` does not start
with a number, or `L` converts and the checksum field `K` does not start with a number; a
field starts with a number when a decimal digit follows its leading white space and
optional sign, and what comes after the digits is not looked at. -/
theorem decrypt_rejects_numberless_fields (d1 d2 tail : Text)
    (h1 : pipe ∉ d1) (h2 : pipe ∉ d2)
    (h : startsNumber d1 = false ∨ ((∃ len, stoi d1 = .ok len) ∧ startsNumber d2 = false)) :
    Cipher.decrypt (d1 ++ [pipe] ++ d2 ++ [pipe] ++ tail) = .error .stoiInvalidArgument ∧
    ∀ cipherType : Int,
      P27.decrypt cipherType (d1 ++ [pipe] ++ d2 ++ [pipe] ++ tail) =
        .error .stoiInvalidArgument := by
  have key : ∀ self : SimpleSubstitutionCipher,
      self.decrypt (d1 ++ [pipe] ++ d2 ++ [pipe] ++ tail) = .error .stoiInvalidArgument := by
    intro self
    rw [decrypt_fields self d1 d2 tail h1 h2]
    rcases h with h | ⟨⟨len, hl⟩, h⟩
    · simp [decodeFields, stoi_of_not_startsNumber d1 h]
    · simp [decodeFields, hl, stoi_of_not_startsNumber d2 h]
  exact ⟨key _, fun _ => key _⟩

theorem decrypt_rejects_numberless_fields_witness :
    (pipe ∉ cstr "x3" ∧ pipe ∉ cstr "199" ∧ startsNumber (cstr "x3") = false) ∧
    Cipher.decrypt (cstr "x3" ++ [pipe] ++ cstr "199" ++ [pipe] ++ cstr "BBC") =
      .error .stoiInvalidArgument ∧
    ∀ cipherType : Int,
      P27.decrypt cipherType (cstr "x3" ++ [pipe] ++ cstr "199" ++ [pipe] ++ cstr "BBC") =
        .error .stoiInvalidArgument :=
  ⟨by decide!,
    decrypt_rejects_numberless_fields (cstr "x3") (cstr "199") (cstr "BBC")
      (by decide!) (by decide!) (Or.inl (by decide!))⟩

/-- C7: on an input `L|K|tail` (split at its first two delimiters) whose two fields convert
to integers, a trailing segment whose number of characters differs from the converted
length makes `decrypt` throw `invalid_argument("Decrypted text length mismatch")`, whatever
the checksum field holds, in `Cipher.cpp` and in `2.7.cpp`; the segment is a string, hence
shorter than `2^63` characters. -/
theorem decrypt_length_mismatch (d1 d2 tail : Text) (len k : Int)
    (h1 : pipe ∉ d1) (h2 : pipe ∉ d2)
    (hl : stoi d1 = .ok len) (hk : stoi d2 = .ok k)
    (hne : (tail.length : Int) ≠ len) (hmax : tail.length < 2 ^ 63) :
    Cipher.decrypt (d1 ++ [pipe] ++ d2 ++ [pipe] ++ tail) = .error .lengthMismatch ∧
    (∀ cipherType : Int,
      P27.decrypt cipherType (d1 ++ [pipe] ++ d2 ++ [pipe] ++ tail) = .error .lengthMismatch) ∧
    Err.lengthMismatch.what = "Decrypted text length mismatch" := by
  refine ⟨?_, fun cipherType => ?_, rfl⟩
  · rw [Cipher.decrypt, decrypt_fields _ d1 d2 tail h1 h2]
    exact decodeFields_length_mismatch _ d1 d2 tail len k hl hk hne hmax
  · rw [P27.decrypt, decrypt_fields _ d1 d2 tail h1 h2]
    exact decodeFields_length_mismatch _ d1 d2 tail len k hl hk hne hmax

theorem decrypt_length_mismatch_witness :
    (stoi (cstr "4") = .ok 4 ∧ stoi (cstr "199") = .ok 199 ∧
      cstr "4" ++ [pipe] ++ cstr "199" ++ [pipe] ++ cstr "BBC" = cstr "4|199|BBC") ∧
    Cipher.decrypt (cstr "4" ++ [pipe] ++ cstr "199" ++ [pipe] ++ cstr "BBC") =
      .error .lengthMismatch ∧
    (∀ cipherType : Int,
      P27.decrypt cipherType (cstr "4" ++ [pipe] ++ cstr "199" ++ [pipe] ++ cstr "BBC") =
        .error .lengthMismatch) ∧
    Err.lengthMismatch.what = "Decrypted text length mismatch" :=
  ⟨by decide!,
    decrypt_length_mismatch (cstr "4") (cstr "199") (cstr "BBC") 4 199
      (by decide!) (by decide!) (by decide!) (by decide!) (by decide!) (by decide!)⟩

/-- C8, as the code has it: on `"2|-145|П"` both fields convert to integers (`2` and `-145`),
the segment has two characters and its checksum `4294967151` differs from the converted
integer `-145`, yet `decrypt` succeeds and returns `"Я"`: the comparison is made with the
`unsigned int` that `-145` becomes. -/
theorem decrypt_accepts_negative_checksum :
    cstr "2" ++ [pipe] ++ cstr "-145" ++ [pipe] ++ cstr "П" = cstr "2|-145|П" ∧
    stoi (cstr "2") = .ok 2 ∧ stoi (cstr "-145") = .ok (-145) ∧
    ((cstr "П").length : Int) = 2 ∧
    calculateChecksum (cstr "П") = 4294967151 ∧
    (calculateChecksum (cstr "П") : Int) ≠ -145 ∧
    toUnsigned (-145) = 4294967151 ∧
    Cipher.decrypt (cstr "2|-145|П") = .ok (cstr "Я") := by
  decide!

/-- C8, amended: on an input `L|K|tail` (split at its first two delimiters) whose two fields
convert to integers and whose trailing segment has exactly the converted length, a segment
whose `calculateChecksum` differs from the converted checksum taken as `unsigned int` (the
value of the variable `checksum`, the integer modulo `2^32`) makes `decrypt` throw
`invalid_argument("Checksum mismatch")`, in `Cipher.cpp` and in `2.7.cpp`. -/
theorem decrypt_checksum_mismatch (d1 d2 tail : Text) (len k : Int)
    (h1 : pipe ∉ d1) (h2 : pipe ∉ d2)
    (hl : stoi d1 = .ok len) (hk : stoi d2 = .ok k)
    (heq : (tail.length : Int) = len) (hne : calculateChecksum tail ≠ toUnsigned k) :
    Cipher.decrypt (d1 ++ [pipe] ++ d2 ++ [pipe] ++ tail) = .error .checksumMismatch ∧
    (∀ cipherType : Int,
      P27.decrypt cipherType (d1 ++ [pipe] ++ d2 ++ [pipe] ++ tail) =
        .error .checksumMismatch) ∧
    Err.checksumMismatch.what = "Checksum mismatch" := by
  refine ⟨?_, fun cipherType => ?_, rfl⟩
  · rw [Cipher.decrypt, decrypt_fields _ d1 d2 tail h1 h2]
    exact decodeFields_checksum_mismatch _ d1 d2 tail len k hl hk heq hne
  · rw [P27.decrypt, decrypt_fields _ d1 d2 tail h1 h2]
    exact decodeFields_checksum_mismatch _ d1 d2 tail len k hl hk heq hne

theorem decrypt_checksum_mismatch_witness :
    (stoi (cstr "3") = .ok 3 ∧ stoi (cstr "0") = .ok 0 ∧ calculateChecksum (cstr "BBC") = 199 ∧
      cstr "3" ++ [pipe] ++ cstr "0" ++ [pipe] ++ cstr "BBC" = cstr "3|0|BBC") ∧
    Cipher.decrypt (cstr "3" ++ [pipe] ++ cstr "0" ++ [pipe] ++ cstr "BBC") =
      .error .checksumMismatch ∧
    (∀ cipherType : Int,
      P27.decrypt cipherType (cstr "3" ++ [pipe] ++ cstr "0" ++ [pipe] ++ cstr "BBC") =
        .error .checksumMismatch) ∧
    Err.checksumMismatch.what = "Checksum mismatch" :=
  ⟨by decide!,
    decrypt_checksum_mismatch (cstr "3") (cstr "0") (cstr "BBC") 3 0
      (by decide!) (by decide!) (by decide!) (by decide!) (by decide!) (by decide!)⟩

/-! ## The claims on the round trip -/

/-- C1, where the code fails: in `Cipher.cpp` the round trip of the one-letter text `"Я"`
(two bytes above 127, sign-extended by `static_cast<unsigned int>`) and of a text of
27531842 letters `'A'` ends in the `std::out_of_range` of `std::stoi`, because the checksum
that `encrypt` wrote as an `unsigned int` exceeds `INT_MAX`. -/
theorem cipher_round_trip_fails_in_stoi :
    Cipher.encrypt (cstr "Я") = cstr "2|4294967151|П" ∧
    Cipher.decrypt (Cipher.encrypt (cstr "Я")) = .error .stoiOutOfRange ∧
    Cipher.decrypt (Cipher.encrypt (List.replicate 27531842 65)) = .error .stoiOutOfRange := by
  refine ⟨by decide!, by decide!, ?_⟩
  apply decrypt_encrypt_out_of_range
  · simp only [List.length_replicate]
    decide
  · simp only [substitute_eq_map, List.map_replicate, calculateChecksum_replicate]
    decide!

/-- C2, where the code fails: in `2.7.cpp`, for each cipher type, the round trip of a text of
2000000 letters `'а'` (U+0430) ends in the `std::out_of_range` of `std::stoi`, because the
checksum of the ciphertext exceeds `INT_MAX`. -/
theorem wide_round_trip_fails_in_stoi :
    P27.decrypt 1 (P27.encrypt 1 (List.replicate 2000000 1072)) = .error .stoiOutOfRange ∧
    P27.decrypt 2 (P27.encrypt 2 (List.replicate 2000000 1072)) = .error .stoiOutOfRange ∧
    P27.decrypt 3 (P27.encrypt 3 (List.replicate 2000000 1072)) = .error .stoiOutOfRange := by
  refine ⟨?_, ?_, ?_⟩ <;>
  · apply decrypt_encrypt_out_of_range
    · simp only [List.length_replicate]
      decide
    · simp only [substitute_eq_map, List.map_replicate, calculateChecksum_replicate]
      decide!

/-- C9, where the code fails: in `2.7.cpp` with cipher type 1 the text of 2000000 letters
`'а'` is encrypted to `"2000000|2176000000|"` followed by 2000000 letters `'р'`; with the
first letter of that segment replaced by `'A'`, `decrypt` ends in the `std::out_of_range` of
`std::stoi` and never reaches the checksum comparison. -/
theorem tampered_large_text_fails_in_stoi :
    P27.encrypt 1 (List.replicate 2000000 1072) =
      wstr "2000000|2176000000|" ++ List.replicate 2000000 1088 ∧
    P27.decrypt 1 (wstr "2000000|2176000000|" ++ (List.replicate 2000000 1088).set 0 65) =
      .error .stoiOutOfRange := by
  have hh : wstr "2000000|2176000000|" =
      to_string 2000000 ++ [pipe] ++ to_string 2176000000 ++ [pipe] := by decide!
  constructor
  · have hr : replaceChar (P27.new 1).substitutionMap 1072 = 1088 := by decide!
    have hk : 2000000 * toUnsigned 1088 % 4294967296 = 2176000000 := by decide!
    simp only [P27.encrypt, SimpleSubstitutionCipher.encrypt, substitute_eq_map,
      List.map_replicate, List.length_replicate, calculateChecksum_replicate, hr, hk, hh]
  · rw [hh]
    exact decrypt_out_of_range _ _ _ _ (by decide) (by decide)

/-- C10: in `2.7.cpp`, for each cipher type 1, 2, 3 and each character `c` of the alphabet,
`substitutionMap` has an entry for `c` and `reverseSubstitutionMap` has an entry for its
image which is `c` again; the selected table has no repeated character and is a
rearrangement of the alphabet, which has no repeated character either, so no assignment of
the filling loop overwrites an earlier one. -/
theorem reverse_map_inverts_substitution (cipherType c : Int)
    (ht : cipherType = 1 ∨ cipherType = 2 ∨ cipherType = 3) (hc : c ∈ P27.alphabet) :
    ((P27.new cipherType).substitutionMap.find c).bind
        (P27.new cipherType).reverseSubstitutionMap.find = some c ∧
    ∃ table, P27.cipher cipherType = some table ∧ table.Nodup ∧ table.Perm P27.alphabet ∧
      P27.alphabet.Nodup := by
  have key : ∀ t ∈ [(1 : Int), 2, 3], (∀ c ∈ P27.alphabet,
      ((P27.new t).substitutionMap.find c).bind (P27.new t).reverseSubstitutionMap.find
        = some c) ∧
      ((P27.cipher t).any fun table =>
        decide (table.Nodup ∧ table.Perm P27.alphabet ∧ P27.alphabet.Nodup)) = true := by
    decide!
  have hmem : cipherType ∈ [(1 : Int), 2, 3] := by
    rcases ht with rfl | rfl | rfl <;> simp
  obtain ⟨k1, k2⟩ := key cipherType hmem
  refine ⟨k1 c hc, ?_⟩
  cases hcip : P27.cipher cipherType with
  | none => simp [hcip] at k2
  | some table =>
    simp only [hcip, Option.any_some, decide_eq_true_eq] at k2
    exact ⟨table, rfl, k2⟩

theorem reverse_map_inverts_substitution_witness :
    ((1 : Int) = 1 ∨ (1 : Int) = 2 ∨ (1 : Int) = 3) ∧ (65 : Int) ∈ P27.alphabet ∧
    ((P27.new 1).substitutionMap.find 65).bind (P27.new 1).reverseSubstitutionMap.find
      = some 65 ∧
    ∃ table, P27.cipher 1 = some table ∧ table.Nodup ∧ table.Perm P27.alphabet ∧
      P27.alphabet.Nodup :=
  ⟨by decide, by decide!,
    reverse_map_inverts_substitution 1 65 (by decide) (by decide!)⟩

/-! ## Subscripts and character loops -/

theorem find_zero_lt (s : Text) (c : Int) (pos : Nat) (h : find s c 0 = some pos) :
    pos < s.length := by
  have h1 : findIdx c s = some pos := by
    simpa [find] using h
  obtain ⟨pre, rest, e, -, hl⟩ := findIdx_some_split c s pos h1
  rw [e, ← hl]
  simp

theorem find_zero_eq_none (s : Text) (c : Int) (h : c ∉ s) : find s c 0 = none := by
  simp [find, findIdx_eq_none c s h]

theorem subscript_defined (s : Text) (pos : Nat) (h : pos ≤ s.length) :
    ∃ x, subscript s pos = some x := by
  unfold subscript
  by_cases h1 : pos < s.length
  · rw [if_pos h1]
    exact ⟨s[pos], List.getElem?_eq_getElem h1⟩
  · have h2 : pos = s.length := by omega
    rw [if_neg h1, if_pos h2]
    exact ⟨0, rfl⟩

theorem mapChars_length (step : Int → Option Int) (text out : Text)
    (h : mapChars step text = some out) : out.length = text.length := by
  induction text generalizing out with
  | nil =>
    simp only [mapChars, Option.some.injEq] at h
    rw [← h]
  | cons c cs ih =>
    simp only [mapChars] at h
    cases h1 : step c with
    | none => simp [h1] at h
    | some x =>
      cases h2 : mapChars step cs with
      | none => simp [h1, h2] at h
      | some xs =>
        simp only [h1, h2, Option.some.injEq] at h
        rw [← h, List.length_cons, List.length_cons, ih xs h2]

theorem mapChars_defined (step : Int → Option Int) (text : Text)
    (h : ∀ c ∈ text, ∃ x, step c = some x) : ∃ out, mapChars step text = some out := by
  induction text with
  | nil => exact ⟨[], rfl⟩
  | cons c cs ih =>
    obtain ⟨x, hx⟩ := h c (by simp)
    obtain ⟨xs, hxs⟩ := ih (fun d hd => h d (by simp [hd]))
    exact ⟨x :: xs, by simp [mapChars, hx, hxs]⟩

theorem mapChars_keep (step : Int → Option Int) (text : Text)
    (h : ∀ c ∈ text, step c = some c) : mapChars step text = some text := by
  induction text with
  | nil => rfl
  | cons c cs ih =>
    simp [mapChars, h c (by simp), ih (fun d hd => h d (by simp [hd]))]

/-- The loop that appends one character at a time is the character-wise loop. -/
theorem foldl_append_eq_mapChars (step : Int → Option Int) (text : Text) :
    text.foldl
      (fun acc c =>
        match acc, step c with
        | some acc, some x => some (acc ++ [x])
        | _, _ => none)
      (some []) = mapChars step text := by
  have hnone : ∀ t : Text,
      t.foldl
        (fun acc c =>
          match acc, step c with
          | some acc, some x => some (acc ++ [x])
          | _, _ => none)
        (none : Option Text) = none := by
    intro t
    induction t with
    | nil => rfl
    | cons c cs ih => simpa using ih
  have gen : ∀ (t : Text) (acc : Text),
      t.foldl
        (fun acc c =>
          match acc, step c with
          | some acc, some x => some (acc ++ [x])
          | _, _ => none)
        (some acc) = (mapChars step t).map (acc ++ ·) := by
    intro t
    induction t with
    | nil => simp [mapChars]
    | cons c cs ih =>
      intro acc
      simp only [List.foldl_cons, mapChars]
      cases h1 : step c with
      | none => simp [hnone]
      | some x =>
        simp only [ih]
        cases h2 : mapChars step cs <;> simp
  simpa using gen text []

theorem encrypt21_eq_mapChars (text cipher : Text) :
    P21.encrypt text cipher = mapChars (P21.encryptChar cipher) text :=
  foldl_append_eq_mapChars _ _

theorem encrypt23_eq_mapChars (text cipher : Text) :
    P23.encrypt text cipher = mapChars (P23.encryptChar cipher) text :=
  foldl_append_eq_mapChars _ _

/-- A `char` that is not a character of the alphabet is not one after its conversion to
`wchar_t` either, the alphabet holding codes below `65408` only. -/
theorem charToWchar_not_mem (alphabet : Text) (hb : ∀ a ∈ alphabet, 0 ≤ a ∧ a < 65408)
    (c : Int) (hc : -128 ≤ c ∧ c ≤ 127) (h : c ∉ alphabet) : charToWchar c ∉ alphabet := by
  unfold charToWchar
  by_cases h0 : 0 ≤ c
  · have : c % 65536 = c := by omega
    rw [this]
    exact h
  · intro hm
    have := hb _ hm
    omega

/-! ## The programs `2.1`, `2.2` and `2.3` -/

theorem alphabet23_eq : P23.alphabet = P21.alphabet := rfl

theorem alphabet21_codes : ∀ a ∈ P21.alphabet, 0 ≤ a ∧ a < 65408 := by decide!

theorem encryptChar21_keep (cipher : Text) (c : Int) (hc : -128 ≤ c ∧ c ≤ 127)
    (h : c ∉ P21.alphabet) : P21.encryptChar cipher c = some c := by
  have hn := charToWchar_not_mem P21.alphabet alphabet21_codes c hc h
  simp [P21.encryptChar, find_zero_eq_none _ _ hn]

theorem encryptChar23_keep (cipher : Text) (c : Int) (hc : -128 ≤ c ∧ c ≤ 127)
    (h : c ∉ P21.alphabet) : P23.encryptChar cipher c = some c := by
  have hn := charToWchar_not_mem P21.alphabet alphabet21_codes c hc h
  rw [← alphabet23_eq] at hn
  simp [P23.encryptChar, find_zero_eq_none _ _ hn]

/-- Whenever `encrypt` of `2.1` has a defined result, it is as long as the text. -/
theorem encrypt21_length (text cipher out : Text) (h : P21.encrypt text cipher = some out) :
    out.length = text.length := by
  rw [encrypt21_eq_mapChars] at h
  exact mapChars_length _ _ _ h

/-- With a table at least as long as the alphabet `encrypt` of `2.1` has a defined result
on every text. -/
theorem encrypt21_defined (text cipher : Text) (hlen : P21.alphabet.length ≤ cipher.length) :
    ∃ out, P21.encrypt text cipher = some out ∧ out.length = text.length := by
  have hd : ∃ out, mapChars (P21.encryptChar cipher) text = some out := by
    apply mapChars_defined
    intro c _
    unfold P21.encryptChar
    cases hf : find P21.alphabet (charToWchar c) 0 with
    | none => exact ⟨c, rfl⟩
    | some pos =>
      have hp := find_zero_lt _ _ _ hf
      obtain ⟨x, hx⟩ := subscript_defined cipher pos (by omega)
      exact ⟨wcharToChar x, by simp [hx]⟩
  obtain ⟨out, ho⟩ := hd
  rw [← encrypt21_eq_mapChars] at ho
  exact ⟨out, ho, encrypt21_length _ _ _ ho⟩

theorem step_211_defined (c : Int) : ∃ x, P22.step_211 c = some x := by
  unfold P22.step_211
  split
  · exact ⟨_, rfl⟩
  · cases hf : find P22.alphabet_upper (toupper c) 0 with
    | some pos =>
      have hp := find_zero_lt _ _ _ hf
      have hl : P22.alphabet_upper.length = P22.encrypted_upper.length := by decide!
      exact subscript_defined _ _ (by omega)
    | none =>
      cases hg : find P22.alphabet_lower c 0 with
      | some pos =>
        have hp := find_zero_lt _ _ _ hg
        have hl : P22.alphabet_lower.length = P22.encrypted_lower.length := by decide!
        exact subscript_defined _ _ (by omega)
      | none => exact ⟨c, rfl⟩

theorem step_212_defined (c : Int) : ∃ x, P22.step_212 c = some x := by
  unfold P22.step_212
  split
  · exact ⟨_, rfl⟩
  · cases hf : find P22.alphabet_upper (toupper c) 0 with
    | some pos =>
      have hl : P22.alphabet_upper.length = P22.encrypted_upper.length := by decide!
      exact subscript_defined _ _ (by omega)
    | none =>
      cases hg : find P22.alphabet_lower c 0 with
      | some pos =>
        have hl : P22.alphabet_lower.length = P22.encrypted_lower.length := by decide!
        exact subscript_defined _ _ (by omega)
      | none => exact ⟨c, rfl⟩

theorem step_213_defined (c : Int) : ∃ x, P22.step_213 c = some x := by
  unfold P22.step_213
  split
  · exact ⟨_, rfl⟩
  · cases hf : find P22.alphabet_upper (toupper c) 0 with
    | some pos =>
      have hl : P22.alphabet_upper.length = P22.encrypted_upper.length := by decide!
      exact subscript_defined _ _ (by omega)
    | none =>
      cases hg : find P22.alphabet_lower c 0 with
      | some pos =>
        have hl : P22.alphabet_lower.length = P22.encrypted_lower.length := by decide!
        exact subscript_defined _ _ (by omega)
      | none => exact ⟨c, rfl⟩

/-- The three functions of `2.2` return a text of the length of their argument. -/
theorem encrypt_22_defined (text : Text) :
    (∃ out, P22.encrypt_211 text = some out ∧ out.length = text.length) ∧
    (∃ out, P22.encrypt_212 text = some out ∧ out.length = text.length) ∧
    (∃ out, P22.encrypt_213 text = some out ∧ out.length = text.length) := by
  refine ⟨?_, ?_, ?_⟩
  · obtain ⟨out, h⟩ := mapChars_defined P22.step_211 text (fun c _ => step_211_defined c)
    exact ⟨out, h, mapChars_length _ _ _ h⟩
  · obtain ⟨out, h⟩ := mapChars_defined P22.step_212 text (fun c _ => step_212_defined c)
    exact ⟨out, h, mapChars_length _ _ _ h⟩
  · obtain ⟨out, h⟩ := mapChars_defined P22.step_213 text (fun c _ => step_213_defined c)
    exact ⟨out, h, mapChars_length _ _ _ h⟩

theorem neg_tmod (a b : Int) : (-a).tmod b = -(a.tmod b) := by
  rw [Int.tmod_def, Int.tmod_def, Int.neg_tdiv]
  ring

/-- What is left of a time after its whole hours are taken away holds no whole hour. -/
theorem remainder_tdiv (a b : Int) (hb : 0 < b) : (a - a.tdiv b * b).tdiv b = 0 := by
  have e : a - a.tdiv b * b = a.tmod b := by
    rw [Int.tmod_def, Int.mul_comm]
  rw [e]
  rcases Int.le_total 0 a with h | h
  · exact Int.tdiv_eq_zero_of_lt (Int.tmod_nonneg b h) (Int.tmod_lt_of_pos a hb)
  · have hn : 0 ≤ -a := by omega
    have h2 := Int.tdiv_eq_zero_of_lt (Int.tmod_nonneg b hn) (Int.tmod_lt_of_pos (-a) hb)
    rw [neg_tmod, Int.neg_tdiv] at h2
    omega

theorem tmod_two_eq_zero (x : Int) : x.tmod 2 = 0 ↔ x % 2 = 0 := by
  rcases Int.le_total 0 x with h | h
  · rw [Int.tmod_eq_emod h (by decide)]
  · have hn : 0 ≤ -x := by omega
    have h1 : (-x).tmod 2 = -(x.tmod 2) := neg_tmod x 2
    rw [Int.tmod_eq_emod hn (by decide)] at h1
    omega

/-- The value `hour` of `encrypt_dynamic` is `0` at every time, so `encrypt_212` is always
the function chosen. -/
theorem encrypt_dynamic_eq_212 (ticksPerHour now : Int) (text : Text) (h : 0 < ticksPerHour) :
    P22.encrypt_dynamic ticksPerHour now text = P22.encrypt_212 text := by
  simp [P22.encrypt_dynamic, remainder_tdiv now ticksPerHour h]

/-! ## The claims on the tables and on the choice of a table -/

/-- C11, where the code fails: in `2.1.cpp` and `2.3.cpp` the alphabet and `cipher1` have 128
characters, but `cipher2`, and `cipher3` which is a copy of it, only 126 (the letters `Ё`
and `ё` are missing); the digit `'9'` is found at position 127 of the alphabet, where
`cipher2[127]` lies beyond the end of the table, so `encrypt("9", cipher2)` has no defined
result. -/
theorem cipher2_shorter_than_alphabet :
    (P21.alphabet.length = 128 ∧ P21.cipher1.length = 128 ∧ P21.cipher2.length = 126 ∧
      P21.cipher3.length = 126) ∧
    (P23.alphabet.length = 128 ∧ P23.cipher1.length = 128 ∧ P23.cipher2.length = 126 ∧
      P23.cipher3.length = 126) ∧
    find P21.alphabet (charToWchar 57) 0 = some 127 ∧
    subscript P21.cipher2 127 = none ∧
    P21.encrypt (cstr "9") P21.cipher2 = none ∧
    P23.encrypt (cstr "9") P23.cipher2 = none := by
  decide!

/-- C12, where the code fails: in `2.6.cpp` `plain` and `cipher_even` have 128 characters
but `cipher_odd` only 127 (the letter `п` is missing); in the table of an odd minute the
letter `я` is mapped to the digit `'9'` and the digit `'9'` to the null character read at
`cipher_odd[127]`. -/
theorem cipher_odd_shorter_than_plain :
    P26.plain.length = 128 ∧ P26.cipher_even.length = 128 ∧ P26.cipher_odd.length = 127 ∧
    (P26.getSubstitutionTable true { tm_min := 1, tm_mon := 0, tm_wday := 0 }).bind
      (UMap.find · 1103) = some 57 ∧
    (P26.getSubstitutionTable true { tm_min := 1, tm_mon := 0, tm_wday := 0 }).bind
      (UMap.find · 57) = some 0 ∧
    isdigit 1103 = false ∧ isdigit 57 = true := by
  decide!

/-- C13: in `2.1.cpp` and `2.3.cpp`, for every table `cipher` (in particular `cipher1`,
`cipher2`, `cipher3`) and every text of `char` values none of which is a character of
`alphabet`, `encrypt(text, cipher)` returns `text` itself; the empty text is included. -/
theorem encrypt_keeps_foreign_text (text cipher : Text)
    (hchar : ∀ c ∈ text, -128 ≤ c ∧ c ≤ 127) (hout : ∀ c ∈ text, c ∉ P21.alphabet) :
    P21.encrypt text cipher = some text ∧ P23.encrypt text cipher = some text := by
  constructor
  · rw [encrypt21_eq_mapChars]
    exact mapChars_keep _ _ (fun c hc => encryptChar21_keep cipher c (hchar c hc) (hout c hc))
  · rw [encrypt23_eq_mapChars]
    exact mapChars_keep _ _ (fun c hc => encryptChar23_keep cipher c (hchar c hc) (hout c hc))

theorem encrypt_keeps_foreign_text_witness :
    ((∀ c ∈ cstr "Привет, мир!", -128 ≤ c ∧ c ≤ 127) ∧
      (∀ c ∈ cstr "Привет, мир!", c ∉ P21.alphabet) ∧ P23.alphabet = P21.alphabet) ∧
    (P21.encrypt (cstr "Привет, мир!") P21.cipher2 = some (cstr "Привет, мир!") ∧
      P23.encrypt (cstr "Привет, мир!") P21.cipher2 = some (cstr "Привет, мир!")) ∧
    (P21.encrypt [] P21.cipher1 = some [] ∧ P23.encrypt [] P21.cipher1 = some []) :=
  ⟨by decide!,
    encrypt_keeps_foreign_text (cstr "Привет, мир!") P21.cipher2 (by decide!) (by decide!),
    encrypt_keeps_foreign_text [] P21.cipher1 (by decide) (by decide)⟩

/-- C14, where the code fails: in `2.1.cpp` `encrypt("9", cipher)` has no defined result for
`cipher2` and for `cipher3`, hence no number of characters: the digit is found at position
127 of the alphabet and the table has 126 characters. -/
theorem encrypt_nine_has_no_result :
    P21.encryptChar P21.cipher2 57 = none ∧
    P21.encrypt (cstr "9") P21.cipher2 = none ∧
    P21.encrypt (cstr "9") P21.cipher3 = none ∧
    P21.encrypt (cstr "2019") P21.cipher2 = none := by
  decide!

/-- C15, where the code fails: with the clock of the Windows target (ticks of 100 ns) and
the time 2024-01-01 15:00:00 UTC, an odd hour, `encrypt_dynamic("1")` is `"2"`, the result
of `encrypt_212`, and not `"0"`, the result of `encrypt_213`. -/
theorem encrypt_dynamic_at_odd_hour :
    (17041212000000000 / 36000000000 : Int) % 24 = 15 ∧
    P22.encrypt_dynamic 36000000000 17041212000000000 (cstr "1") = some (cstr "2") ∧
    P22.encrypt_212 (cstr "1") = some (cstr "2") ∧
    P22.encrypt_213 (cstr "1") = some (cstr "0") := by
  decide!

/-- C16: in `2.5.cpp`, when `localtime_s` succeeds, `selectCipher` returns `cipher2` on
Saturday and Sunday whatever the month, applies the month rule (`cipher3` or `cipher1`) on
Monday to Friday only, and always returns one of `cipher1`, `cipher2`, `cipher3`. -/
theorem selectCipher_weekend_first (now : Tm) (alphabet cipher1 cipher2 cipher3 : Text) :
    ((now.tm_wday = 0 ∨ now.tm_wday = 6) →
      P25.selectCipher 0 now alphabet cipher1 cipher2 cipher3 = some cipher2) ∧
    ((1 ≤ now.tm_wday ∧ now.tm_wday ≤ 5) →
      P25.selectCipher 0 now alphabet cipher1 cipher2 cipher3 =
        some (if now.tm_mon % 2 = 0 then cipher3 else cipher1)) ∧
    (P25.selectCipher 0 now alphabet cipher1 cipher2 cipher3 = some cipher1 ∨
      P25.selectCipher 0 now alphabet cipher1 cipher2 cipher3 = some cipher2 ∨
      P25.selectCipher 0 now alphabet cipher1 cipher2 cipher3 = some cipher3) := by
  refine ⟨?_, ?_, ?_⟩
  · intro h
    simp [P25.selectCipher, h]
  · intro h
    have hw : ¬ (now.tm_wday = 0 ∨ now.tm_wday = 6) := by omega
    by_cases hm : now.tm_mon % 2 = 0
    · simp [P25.selectCipher, hw, hm, (tmod_two_eq_zero _).mpr hm]
    · have hm2 : ¬ (now.tm_mon.tmod 2 = 0) := fun e => hm ((tmod_two_eq_zero _).mp e)
      simp [P25.selectCipher, hw, hm, hm2]
  · by_cases hw : now.tm_wday = 0 ∨ now.tm_wday = 6
    · simp [P25.selectCipher, hw]
    · by_cases hm : now.tm_mon.tmod 2 = 0 <;> simp [P25.selectCipher, hw, hm]

theorem selectCipher_weekend_first_witness :
    P25.selectCipher 0 { tm_min := 0, tm_mon := 4, tm_wday := 6 }
        P25.alphabet P25.cipher1 P25.cipher2 P25.cipher3 = some P25.cipher2 ∧
    P25.selectCipher 0 { tm_min := 0, tm_mon := 4, tm_wday := 2 }
        P25.alphabet P25.cipher1 P25.cipher2 P25.cipher3 =
      some (if (4 : Int) % 2 = 0 then P25.cipher3 else P25.cipher1) :=
  ⟨(selectCipher_weekend_first { tm_min := 0, tm_mon := 4, tm_wday := 6 }
      P25.alphabet P25.cipher1 P25.cipher2 P25.cipher3).1 (by decide),
    (selectCipher_weekend_first { tm_min := 0, tm_mon := 4, tm_wday := 2 }
      P25.alphabet P25.cipher1 P25.cipher2 P25.cipher3).2.1 (by decide)⟩

/-- C17, where the code fails: in `2.5.cpp`, on a Wednesday in February (`tm_mon = 1`, the
even month 2) `selectCipher` returns `cipher1`, and in January (`tm_mon = 0`, the odd
month 1) it returns `cipher3`, a different table; `encrypt_by_month` of `2.2.cpp` counts
February as even and takes its branch for even months. -/
theorem selectCipher_in_february :
    P25.selectCipher 0 { tm_min := 0, tm_mon := 1, tm_wday := 3 }
        P25.alphabet P25.cipher1 P25.cipher2 P25.cipher3 = some P25.cipher1 ∧
    P25.selectCipher 0 { tm_min := 0, tm_mon := 0, tm_wday := 3 }
        P25.alphabet P25.cipher1 P25.cipher2 P25.cipher3 = some P25.cipher3 ∧
    P25.cipher1 ≠ P25.cipher3 ∧
    P22.encrypt_by_month { tm_min := 0, tm_mon := 1, tm_wday := 3 } (cstr "1") =
      P22.encrypt_213 (cstr "1") := by
  decide!

/-- C18: in `2.2.cpp` `encrypt_by_month(text)` returns `encrypt_213(text)` when the month
number `tm_mon + 1` is even and `encrypt_211(text)` when it is odd, and it does return a
text. -/
theorem encrypt_by_month_parity (time_info : Tm) (text : Text) :
    ((time_info.tm_mon + 1) % 2 = 0 →
      P22.encrypt_by_month time_info text = P22.encrypt_213 text) ∧
    ((time_info.tm_mon + 1) % 2 = 1 →
      P22.encrypt_by_month time_info text = P22.encrypt_211 text) ∧
    ∃ out, P22.encrypt_by_month time_info text = some out := by
  refine ⟨?_, ?_, ?_⟩
  · intro h
    simp [P22.encrypt_by_month, (tmod_two_eq_zero _).mpr h]
  · intro h
    have h2 : ¬ ((time_info.tm_mon + 1).tmod 2 = 0) := by
      intro e
      have := (tmod_two_eq_zero _).mp e
      omega
    simp [P22.encrypt_by_month, h2]
  · obtain ⟨⟨o1, h1, -⟩, -, ⟨o3, h3, -⟩⟩ := encrypt_22_defined text
    by_cases h : (time_info.tm_mon + 1).tmod 2 = 0
    · exact ⟨o3, by simp [P22.encrypt_by_month, h, h3]⟩
    · exact ⟨o1, by simp [P22.encrypt_by_month, h, h1]⟩

theorem encrypt_by_month_parity_witness :
    P22.encrypt_by_month { tm_min := 0, tm_mon := 1, tm_wday := 0 } (cstr "a1") =
      P22.encrypt_213 (cstr "a1") ∧
    P22.encrypt_by_month { tm_min := 0, tm_mon := 2, tm_wday := 0 } (cstr "a1") =
      P22.encrypt_211 (cstr "a1") :=
  ⟨(encrypt_by_month_parity { tm_min := 0, tm_mon := 1, tm_wday := 0 } (cstr "a1")).1
      (by decide),
    (encrypt_by_month_parity { tm_min := 0, tm_mon := 2, tm_wday := 0 } (cstr "a1")).2.1
      (by decide)⟩

/-- C19: in `2.2.cpp` `encrypt_by_day_of_week(text)` returns `encrypt_212(text)` on Saturday
and Sunday (`tm_wday` 6 or 0) and `encrypt_211(text)` on Monday to Friday (`tm_wday` 1 to
5), and it does return a text. -/
theorem encrypt_by_day_of_week_rule (time_info : Tm) (text : Text) :
    ((time_info.tm_wday = 6 ∨ time_info.tm_wday = 0) →
      P22.encrypt_by_day_of_week time_info text = P22.encrypt_212 text) ∧
    ((1 ≤ time_info.tm_wday ∧ time_info.tm_wday ≤ 5) →
      P22.encrypt_by_day_of_week time_info text = P22.encrypt_211 text) ∧
    ∃ out, P22.encrypt_by_day_of_week time_info text = some out := by
  refine ⟨?_, ?_, ?_⟩
  · intro h
    have h2 : ¬ (1 ≤ time_info.tm_wday ∧ time_info.tm_wday ≤ 5) := by omega
    simp only [P22.encrypt_by_day_of_week, h2, if_false]
  · intro h
    simp only [P22.encrypt_by_day_of_week, h, and_self, if_true]
  · obtain ⟨⟨o1, h1, -⟩, ⟨o2, h2, -⟩, -⟩ := encrypt_22_defined text
    by_cases h : 1 ≤ time_info.tm_wday ∧ time_info.tm_wday ≤ 5
    · exact ⟨o1, by simp only [P22.encrypt_by_day_of_week, h, and_self, if_true, h1]⟩
    · exact ⟨o2, by simp only [P22.encrypt_by_day_of_week, h, if_false, h2]⟩

theorem encrypt_by_day_of_week_rule_witness :
    P22.encrypt_by_day_of_week { tm_min := 0, tm_mon := 0, tm_wday := 6 } (cstr "a1") =
      P22.encrypt_212 (cstr "a1") ∧
    P22.encrypt_by_day_of_week { tm_min := 0, tm_mon := 0, tm_wday := 3 } (cstr "a1") =
      P22.encrypt_211 (cstr "a1") :=
  ⟨(encrypt_by_day_of_week_rule { tm_min := 0, tm_mon := 0, tm_wday := 6 } (cstr "a1")).1
      (by decide),
    (encrypt_by_day_of_week_rule { tm_min := 0, tm_mon := 0, tm_wday := 3 } (cstr "a1")).2.1
      (by decide)⟩

/-- C20: in `2.6.cpp`, with `timeBased == true` the table returned by `getSubstitutionTable`
maps `plain[i]` to `cipher_even[i]` for every `i` when the minute is even and to
`cipher_odd[i]` when it is odd; with `timeBased == false` it maps `plain[i]` to
`cipher_even[i]` at every time. -/
theorem getSubstitutionTable_minute_parity (now : Tm) :
    (now.tm_min % 2 = 0 →
      isTableOf (P26.getSubstitutionTable true now) P26.plain P26.cipher_even = true) ∧
    (now.tm_min % 2 = 1 →
      isTableOf (P26.getSubstitutionTable true now) P26.plain P26.cipher_odd = true) ∧
    isTableOf (P26.getSubstitutionTable false now) P26.plain P26.cipher_even = true := by
  have heven : isTableOf (P26.getSubstitutionTable false { tm_min := 0, tm_mon := 0, tm_wday := 0 })
      P26.plain P26.cipher_even = true := by decide!
  have hodd : isTableOf (P26.getSubstitutionTable true { tm_min := 1, tm_mon := 0, tm_wday := 0 })
      P26.plain P26.cipher_odd = true := by decide!
  have hfalse : ∀ t : Tm, P26.getSubstitutionTable false t =
      P26.getSubstitutionTable false { tm_min := 0, tm_mon := 0, tm_wday := 0 } := fun _ => rfl
  refine ⟨?_, ?_, ?_⟩
  · intro h
    have e : P26.getSubstitutionTable true now =
        P26.getSubstitutionTable false { tm_min := 0, tm_mon := 0, tm_wday := 0 } := by
      simp only [P26.getSubstitutionTable, (tmod_two_eq_zero _).mpr h, decide_True, if_true]
      rfl
    rw [e]
    exact heven
  · intro h
    have h2 : ¬ (now.tm_min.tmod 2 = 0) := by
      intro e
      have := (tmod_two_eq_zero _).mp e
      omega
    have e : P26.getSubstitutionTable true now =
        P26.getSubstitutionTable true { tm_min := 1, tm_mon := 0, tm_wday := 0 } := by
      simp only [P26.getSubstitutionTable, h2, decide_False, if_true]
      rfl
    rw [e]
    exact hodd
  · rw [hfalse now]
    exact heven

theorem getSubstitutionTable_minute_parity_witness :
    isTableOf (P26.getSubstitutionTable true { tm_min := 14, tm_mon := 0, tm_wday := 0 })
      P26.plain P26.cipher_even = true ∧
    isTableOf (P26.getSubstitutionTable true { tm_min := 15, tm_mon := 0, tm_wday := 0 })
      P26.plain P26.cipher_odd = true ∧
    P26.cipher_even ≠ P26.cipher_odd :=
  ⟨(getSubstitutionTable_minute_parity { tm_min := 14, tm_mon := 0, tm_wday := 0 }).1
      (by decide),
    (getSubstitutionTable_minute_parity { tm_min := 15, tm_mon := 0, tm_wday := 0 }).2.1
      (by decide), by decide!⟩

/-! ## The checksums of the programs `2.3`, `2.5` and `2.6` -/

theorem toUChar_lt (v : Int) : toUChar v < 256 := by
  simp only [toUChar]
  omega

/-- A sum that wraps around at every step is the sum reduced once at the end. -/
theorem foldl_add_mod (f : Int → Nat) (m : Nat) (hm : 0 < m) (text : Text) :
    text.foldl (fun acc c => (acc + f c) % m) 0 = (text.map f).sum % m := by
  have gen : ∀ (acc : Nat), acc < m →
      text.foldl (fun acc c => (acc + f c) % m) acc = (acc + (text.map f).sum) % m := by
    induction text with
    | nil =>
      intro acc h
      simp only [List.foldl_nil, List.map_nil, List.sum_nil, Nat.add_zero]
      exact (Nat.mod_eq_of_lt h).symm
    | cons c cs ih =>
      intro acc _
      simp only [List.foldl_cons, List.map_cons, List.sum_cons]
      rw [ih _ (Nat.mod_lt _ hm), Nat.mod_add_mod, Nat.add_assoc]
  simpa using gen 0 hm

theorem toUChar_shift (v : Int) :
    toUChar (v >>> (8 : Nat)) &&& 0xFF = (v / 256 % 256).toNat := by
  have h1 : toUChar (v >>> (8 : Nat)) &&& 0xFF = toUChar (v >>> (8 : Nat)) % 256 :=
    Nat.and_pow_two_sub_one_eq_mod _ 8
  rw [h1, Nat.mod_eq_of_lt (toUChar_lt _), toUChar, Int.shiftRight_eq_div_pow]
  rfl

theorem sum_toUChar_mod (text : Text) :
    (((text.map toUChar).sum : Nat) : Int) % 256 = text.sum % 256 := by
  induction text with
  | nil => rfl
  | cons c cs ih =>
    rw [List.map_cons, List.sum_cons, List.sum_cons, Nat.cast_add]
    simp only [toUChar]
    omega

/-- C21: in `2.5.cpp`, for every wide text, `calculateChecksum(text)` is the sum over its
characters `v` of the low byte `v & 0xFF` (that is `v mod 256`) plus the next byte
`(v >> 8) & 0xFF` (that is `(v div 256) mod 256`), reduced modulo 256; it wraps around and
is always in `0 .. 255`. -/
theorem byte_split_checksum (text : Text) :
    P25.calculateChecksum text =
      (text.map fun v => (v % 256).toNat + (v / 256 % 256).toNat).sum % 256 ∧
    P25.calculateChecksum text < 256 := by
  have h : P25.calculateChecksum text =
      (text.map fun v => (v % 256).toNat + (v / 256 % 256).toNat).sum % 256 := by
    have e : (fun (checksum : Nat) (ch : Int) =>
          (checksum + (toUChar ch + (toUChar (ch >>> (8 : Nat)) &&& 0xFF))) % 256) =
        fun checksum ch => (checksum + ((ch % 256).toNat + (ch / 256 % 256).toNat)) % 256 := by
      funext checksum ch
      rw [toUChar_shift]
      rfl
    rw [P25.calculateChecksum, e]
    exact foldl_add_mod (fun v => (v % 256).toNat + (v / 256 % 256).toNat) 256 (by decide) text
  exact ⟨h, by rw [h]; exact Nat.mod_lt _ (by decide)⟩

/-- C22: in `2.6.cpp`, for every wide text, `calculateChecksum(text)` is the sum of the codes
of all characters of the text reduced modulo 256, the code adding the low byte of each
character only. -/
theorem low_byte_checksum (text : Text) :
    P26.calculateChecksum text = (text.sum % 256).toNat ∧
    P26.calculateChecksum text = (text.map fun v => (v % 256).toNat).sum % 256 := by
  have h : P26.calculateChecksum text = (text.map toUChar).sum % 256 :=
    foldl_add_mod toUChar 256 (by decide) text
  refine ⟨?_, h⟩
  rw [h]
  have := sum_toUChar_mod text
  omega

/-- C23: in `2.3.cpp`, for every text, `calculate_checksum(text)` is the sum of its bytes,
each taken as a value in `0 .. 255`, modulo `2^32`; it depends on the text only, it is `0`
for the empty text and `199` for `"BBC"`. -/
theorem byte_sum_checksum (text : Text) :
    P23.calculate_checksum text = (text.map toUChar).sum % 4294967296 ∧
    (text.map toUChar).all (· < 256) = true ∧
    P23.calculate_checksum [] = 0 ∧
    P23.calculate_checksum (cstr "BBC") = 199 := by
  refine ⟨foldl_add_mod toUChar 4294967296 (by decide) text, ?_, rfl, by decide!⟩
  simp only [List.all_eq_true, List.mem_map, decide_eq_true_eq]
  rintro x ⟨c, -, rfl⟩
  exact toUChar_lt c

theorem sum_map_set (f : Int → Nat) (l : Text) (i : Nat) (a : Int) (hi : i < l.length) :
    ((l.set i a).map f).sum + f (l.getD i 0) = (l.map f).sum + f a := by
  have hset : l.set i a = l.take i ++ a :: l.drop (i + 1) := by
    rw [List.set_eq_take_append_cons_drop, if_pos hi]
  have hl : l = l.take i ++ l.getD i 0 :: l.drop (i + 1) := by
    rw [List.getD_eq_getElem l 0 hi, ← List.drop_eq_getElem_cons hi, List.take_append_drop]
  rw [hset]
  conv_rhs => rw [hl]
  simp only [List.map_append, List.map_cons, List.sum_append, List.sum_cons]
  omega

theorem getD_set_other (l : Text) (i j : Nat) (hj : j < l.length) :
    (l.set i (l.getD j 0)).getD j 0 = l.getD j 0 := by
  have hj2 : j < (l.set i (l.getD j 0)).length := by simpa using hj
  rw [List.getD_eq_getElem _ 0 hj2, List.getElem_set]
  split
  · rfl
  · exact (List.getD_eq_getElem l 0 hj).symm

/-- Exchanging two characters leaves every sum over the characters as it was. -/
theorem sum_map_swapAt (f : Int → Nat) (l : Text) (i j : Nat)
    (hi : i < l.length) (hj : j < l.length) :
    ((swapAt l i j).map f).sum = (l.map f).sum := by
  have h1 := sum_map_set f l i (l.getD j 0) hi
  have hj2 : j < (l.set i (l.getD j 0)).length := by simpa using hj
  have h2 := sum_map_set f (l.set i (l.getD j 0)) j (l.getD i 0) hj2
  rw [getD_set_other l i j hj] at h2
  unfold swapAt
  omega

theorem checksums_swapAt (text : Text) (i j : Nat) (hi : i < text.length)
    (hj : j < text.length) :
    calculateChecksum (swapAt text i j) = calculateChecksum text ∧
    P23.calculate_checksum (swapAt text i j) = P23.calculate_checksum text := by
  constructor
  · rw [calculateChecksum_eq_sum, calculateChecksum_eq_sum, sum_map_swapAt _ _ _ _ hi hj]
  · have e : ∀ t : Text, P23.calculate_checksum t = (t.map toUChar).sum % 4294967296 :=
      fun t => foldl_add_mod toUChar 4294967296 (by decide) t
    rw [e, e, sum_map_swapAt _ _ _ _ hi hj]

/-- C24, as the code has it: there is no text with two positions holding distinct characters
whose exchange changes `calculateChecksum` of `2.7.cpp`, and none for `calculate_checksum`
of `2.3.cpp`. -/
theorem no_swap_changes_checksum :
    (¬ ∃ (text : Text) (i j : Nat), i < text.length ∧ j < text.length ∧
      text.getD i 0 ≠ text.getD j 0 ∧
      calculateChecksum (swapAt text i j) ≠ calculateChecksum text) ∧
    (¬ ∃ (text : Text) (i j : Nat), i < text.length ∧ j < text.length ∧
      text.getD i 0 ≠ text.getD j 0 ∧
      P23.calculate_checksum (swapAt text i j) ≠ P23.calculate_checksum text) := by
  constructor
  · rintro ⟨text, i, j, hi, hj, -, h⟩
    exact h (checksums_swapAt text i j hi hj).1
  · rintro ⟨text, i, j, hi, hj, -, h⟩
    exact h (checksums_swapAt text i j hi hj).2

/-- C24, amended: the checksum is not sensitive to the order of the characters: for every
text and every two positions of it, exchanging the two characters leaves
`calculateChecksum` of `2.7.cpp` and `calculate_checksum` of `2.3.cpp` unchanged. -/
theorem checksum_ignores_order (text : Text) (i j : Nat) (hi : i < text.length)
    (hj : j < text.length) :
    calculateChecksum (swapAt text i j) = calculateChecksum text ∧
    P23.calculate_checksum (swapAt text i j) = P23.calculate_checksum text :=
  checksums_swapAt text i j hi hj

theorem checksum_ignores_order_witness :
    (swapAt (cstr "BBC") 0 2 = cstr "CBB" ∧ (cstr "BBC").getD 0 0 ≠ (cstr "BBC").getD 2 0) ∧
    calculateChecksum (swapAt (cstr "BBC") 0 2) = calculateChecksum (cstr "BBC") ∧
    P23.calculate_checksum (swapAt (cstr "BBC") 0 2) = P23.calculate_checksum (cstr "BBC") :=
  ⟨by decide!, checksum_ignores_order (cstr "BBC") 0 2 (by decide!) (by decide!)⟩

theorem mapChars_getElem? (step : Int → Option Int) (text out : Text)
    (h : mapChars step text = some out) (i : Nat) (c : Int) (hc : text[i]? = some c) :
    (out[i]?).map some = some (step c) := by
  induction text generalizing out i with
  | nil => simp at hc
  | cons d ds ih =>
    simp only [mapChars] at h
    cases h1 : step d with
    | none => simp [h1] at h
    | some x =>
      cases h2 : mapChars step ds with
      | none => simp [h1, h2] at h
      | some xs =>
        simp only [h1, h2, Option.some.injEq] at h
        subst h
        cases i with
        | zero =>
          simp only [List.getElem?_cons_zero, Option.some.injEq] at hc
          subst hc
          simp [h1]
        | succ k =>
          simp only [List.getElem?_cons_succ] at hc
          simpa using ih xs h2 k hc

theorem step_digits : ∀ d : Nat, d < 10 →
    P22.step_211 (48 + (d : Int)) = some ((48 : Int) + (((d + 9) % 10 : Nat) : Int)) ∧
    P22.step_212 (48 + (d : Int)) = some ((48 : Int) + (((d + 1) % 10 : Nat) : Int)) ∧
    P22.step_213 (48 + (d : Int)) = some ((48 : Int) + (((d + 9) % 10 : Nat) : Int)) := by
  decide!

/-- C25: in `2.2.cpp`, wherever a text holds a digit character `'0' + d`, the outputs of
`encrypt_211` and `encrypt_213` hold the digit `'0' + (d + 9) mod 10` at that position and
the output of `encrypt_212` holds `'0' + (d + 1) mod 10`; the image is a digit and does not
depend on the letter tables. -/
theorem digits_are_rotated (text : Text) (i d : Nat) (hd : d < 10)
    (hi : text[i]? = some (48 + (d : Int))) :
    (∃ out : Text, P22.encrypt_211 text = some out ∧ out[i]? = some ((48 : Int) + (((d + 9) % 10 : Nat) : Int))) ∧
    (∃ out : Text, P22.encrypt_212 text = some out ∧ out[i]? = some ((48 : Int) + (((d + 1) % 10 : Nat) : Int))) ∧
    (∃ out : Text, P22.encrypt_213 text = some out ∧ out[i]? = some ((48 : Int) + (((d + 9) % 10 : Nat) : Int))) ∧
    isdigit ((48 : Int) + (((d + 9) % 10 : Nat) : Int)) = true ∧ isdigit ((48 : Int) + (((d + 1) % 10 : Nat) : Int)) = true := by
  obtain ⟨⟨o1, h1, -⟩, ⟨o2, h2, -⟩, ⟨o3, h3, -⟩⟩ := encrypt_22_defined text
  obtain ⟨s1, s2, s3⟩ := step_digits d hd
  have g1 := mapChars_getElem? _ _ _ h1 i _ hi
  have g2 := mapChars_getElem? _ _ _ h2 i _ hi
  have g3 := mapChars_getElem? _ _ _ h3 i _ hi
  rw [s1] at g1
  rw [s2] at g2
  rw [s3] at g3
  refine ⟨⟨o1, h1, ?_⟩, ⟨o2, h2, ?_⟩, ⟨o3, h3, ?_⟩, ?_, ?_⟩
  · cases h : o1[i]? <;> simp_all
  · cases h : o2[i]? <;> simp_all
  · cases h : o3[i]? <;> simp_all
  · simp only [isdigit, Bool.and_eq_true, decide_eq_true_eq]
    omega
  · simp only [isdigit, Bool.and_eq_true, decide_eq_true_eq]
    omega

theorem digits_are_rotated_witness :
    (cstr "a7")[1]? = some (48 + ((7 : Nat) : Int)) ∧
    (∃ out : Text, P22.encrypt_211 (cstr "a7") = some out ∧
      out[1]? = some ((48 : Int) + (((7 + 9) % 10 : Nat) : Int))) ∧
    (∃ out : Text, P22.encrypt_212 (cstr "a7") = some out ∧
      out[1]? = some ((48 : Int) + (((7 + 1) % 10 : Nat) : Int))) ∧
    (∃ out : Text, P22.encrypt_213 (cstr "a7") = some out ∧
      out[1]? = some ((48 : Int) + (((7 + 9) % 10 : Nat) : Int))) ∧
    isdigit ((48 : Int) + (((7 + 9) % 10 : Nat) : Int)) = true ∧ isdigit ((48 : Int) + (((7 + 1) % 10 : Nat) : Int)) = true :=
  ⟨by decide!, digits_are_rotated (cstr "a7") 1 7 (by decide) (by decide!)⟩

/-- C26, where the code fails: in `2.7.cpp` with cipher type 2 the letter `Ц`, at position 22
of the block of upper-case Cyrillic letters (32 letters from position 52 of the alphabet),
is mapped to `И` and not to `Й`, the letter at position `32 - 1 - 22` of the block; `Ч`,
`ц` and `ч` are off in the same way, while cipher type 3 maps `Ц` to `Й`. -/
theorem cipher2_is_not_the_reversal :
    P27.alphabet.getD (52 + 22) 0 = 1062 ∧
    P27.alphabet.getD (52 + (32 - 1 - 22)) 0 = 1049 ∧
    (P27.new 2).substitutionMap.find 1062 = some 1048 ∧
    (P27.new 2).substitutionMap.find 1063 = some 1049 ∧
    (P27.new 2).substitutionMap.find 1094 = some 1080 ∧
    (P27.new 2).substitutionMap.find 1095 = some 1081 ∧
    (P27.new 3).substitutionMap.find 1062 = some 1049 ∧
    wstr "ЦЙИЧцйич" = [1062, 1049, 1048, 1063, 1094, 1081, 1080, 1095] := by
  decide!

/-! ## The table of `createSubstitutionTable` -/

theorem subscript_eq_getElem? (s : Text) (i : Nat) (h : i < s.length) :
    subscript s i = s[i]? := by
  simp [subscript, h]

theorem createTable_steps (alphabet cipher : Text) (hlen : alphabet.length ≤ cipher.length)
    (n : Nat) (hn : n ≤ alphabet.length) :
    ∃ t : UMap,
      (List.range n).foldl
        (fun table i =>
          match table, subscript alphabet i, subscript cipher i with
          | some table, some a, some x => some (UMap.assign table a x)
          | _, _, _ => none)
        (some []) = some t ∧
      (∀ c, t.find c = none ↔ ∀ i, i < n → alphabet[i]? ≠ some c) ∧
      (∀ (i : Nat) (a x : Int), i < n → alphabet[i]? = some a → cipher[i]? = some x →
        (∀ j : Nat, i < j → j < n → alphabet[j]? ≠ some a) → t.find a = some x) := by
  induction n with
  | zero =>
    refine ⟨[], rfl, ?_, ?_⟩
    · intro c
      simp [UMap.find]
    · intro i a x hi
      omega
  | succ k ih =>
    obtain ⟨t, ht, h1, h2⟩ := ih (by omega)
    have hk : k < alphabet.length := by omega
    have hk2 : k < cipher.length := by omega
    have ha : alphabet[k]? = some alphabet[k] := List.getElem?_eq_getElem hk
    have hx : cipher[k]? = some cipher[k] := List.getElem?_eq_getElem hk2
    refine ⟨t.assign alphabet[k] cipher[k], ?_, ?_, ?_⟩
    · rw [List.range_succ, List.foldl_append, ht]
      simp only [List.foldl_cons, List.foldl_nil, subscript_eq_getElem? _ _ hk,
        subscript_eq_getElem? _ _ hk2, ha, hx]
    · intro c
      rw [UMap.find_assign]
      by_cases hc : c = alphabet[k]
      · simp only [hc, if_true]
        constructor
        · intro h
          cases h
        · intro h
          exact absurd ha (h k (Nat.lt_succ_self k))
      · simp only [hc, if_false]
        rw [h1 c]
        constructor
        · intro h i hi
          by_cases hik : i = k
          · subst hik
            rw [ha]
            intro e
            exact hc (Option.some.inj e).symm
          · exact h i (by omega)
        · intro h i hi
          exact h i (by omega)
    · intro i a x hi hia hix hlast
      rw [UMap.find_assign]
      by_cases hik : i = k
      · subst hik
        rw [ha] at hia
        rw [hx] at hix
        have e1 : a = alphabet[i] := (Option.some.inj hia).symm
        have e2 : x = cipher[i] := (Option.some.inj hix).symm
        simp [e1, e2]
      · have hne : a ≠ alphabet[k] := by
          intro e
          exact hlast k (by omega) (Nat.lt_succ_self k) (by rw [ha, e])
        simp only [hne, if_false]
        exact h2 i a x (by omega) hia hix (fun j hij hjk => hlast j hij (by omega))

/-- The table of `createSubstitutionTable`: its keys and its values. -/
theorem createSubstitutionTable_keys (alphabet cipher : Text)
    (hlen : alphabet.length ≤ cipher.length) :
    ∃ table : UMap, P25.createSubstitutionTable alphabet cipher = some table ∧
      (∀ c, (table.find c).isSome = true ↔ c ∈ alphabet) ∧
      (∀ (i : Nat) (a x : Int), alphabet[i]? = some a → cipher[i]? = some x →
        (∀ j : Nat, i < j → alphabet[j]? ≠ some a) → table.find a = some x) ∧
      (alphabet.Nodup → ∀ (i : Nat) (a x : Int), alphabet[i]? = some a → cipher[i]? = some x →
        table.find a = some x) := by
  obtain ⟨t, ht, h1, h2⟩ := createTable_steps alphabet cipher hlen alphabet.length (Nat.le_refl _)
  have hlast : ∀ (i : Nat) (a x : Int), alphabet[i]? = some a → cipher[i]? = some x →
      (∀ j : Nat, i < j → alphabet[j]? ≠ some a) → t.find a = some x := by
    intro i a x hia hix hl
    have hi : i < alphabet.length := by
      obtain ⟨h, -⟩ := List.getElem?_eq_some.mp hia
      exact h
    exact h2 i a x hi hia hix (fun j hij _ => hl j hij)
  refine ⟨t, ht, ?_, hlast, ?_⟩
  · intro c
    rw [List.mem_iff_getElem?]
    constructor
    · intro hs
      by_contra hn
      have : t.find c = none := (h1 c).mpr (fun i _ e => hn ⟨i, e⟩)
      rw [this] at hs
      cases hs
    · rintro ⟨i, hi⟩
      cases hf : t.find c with
      | some v => rfl
      | none =>
        have hi2 : i < alphabet.length := by
          obtain ⟨h, -⟩ := List.getElem?_eq_some.mp hi
          exact h
        exact absurd hi ((h1 c).mp hf i hi2)
  · intro hnd i a x hia hix
    apply hlast i a x hia hix
    intro j hij hja
    obtain ⟨hi, ei⟩ := List.getElem?_eq_some.mp hia
    obtain ⟨hj, ej⟩ := List.getElem?_eq_some.mp hja
    have := (List.Nodup.getElem_inj_iff hnd).mp (ei.trans ej.symm)
    omega

/-- C28: in `2.5.cpp`, for every alphabet and every cipher at least as long,
`createSubstitutionTable(alphabet, cipher)` returns a table whose keys are exactly the
characters that occur in `alphabet`, and which maps a character to `cipher[i]` for the last
index `i` with `alphabet[i]` equal to it; when the alphabet has no repeated character this
is `cipher[i]` for the one index `i` of the character. -/
theorem createSubstitutionTable_last_wins (alphabet cipher : Text)
    (hlen : alphabet.length ≤ cipher.length) :
    ∃ table : UMap, P25.createSubstitutionTable alphabet cipher = some table ∧
      (∀ c, (table.find c).isSome = true ↔ c ∈ alphabet) ∧
      (∀ (i : Nat) (a x : Int), alphabet[i]? = some a → cipher[i]? = some x →
        (∀ j : Nat, i < j → alphabet[j]? ≠ some a) → table.find a = some x) ∧
      (alphabet.Nodup → ∀ (i : Nat) (a x : Int), alphabet[i]? = some a → cipher[i]? = some x →
        table.find a = some x) :=
  createSubstitutionTable_keys alphabet cipher hlen

theorem createSubstitutionTable_last_wins_witness :
    (cstr "ABA").length ≤ (cstr "XYZ").length ∧
    P25.createSubstitutionTable (cstr "ABA") (cstr "XYZ") = some [(65, 90), (66, 89), (65, 88)] ∧
    ∃ table : UMap, P25.createSubstitutionTable (cstr "ABA") (cstr "XYZ") = some table ∧
      (∀ c, (table.find c).isSome = true ↔ c ∈ cstr "ABA") ∧
      (∀ (i : Nat) (a x : Int), (cstr "ABA")[i]? = some a → (cstr "XYZ")[i]? = some x →
        (∀ j : Nat, i < j → (cstr "ABA")[j]? ≠ some a) → table.find a = some x) ∧
      ((cstr "ABA").Nodup → ∀ (i : Nat) (a x : Int), (cstr "ABA")[i]? = some a → (cstr "XYZ")[i]? = some x →
        table.find a = some x) :=
  ⟨by decide!, by decide!,
    createSubstitutionTable_last_wins (cstr "ABA") (cstr "XYZ") (by decide!)⟩

/-! ## Searching the alphabet and looking up the table -/

theorem not_mem_of_findIdx_none (c : Int) (s : Text) (h : findIdx c s = none) : c ∉ s := by
  induction s with
  | nil => simp
  | cons x xs ih =>
    simp only [findIdx] at h
    split at h
    · cases h
    · rename_i hx
      cases hq : findIdx c xs with
      | some q => simp [hq] at h
      | none =>
        simp only [List.mem_cons, not_or]
        exact ⟨fun e => hx e.symm, ih hq⟩

/-- The position that `find` returns holds the character and no earlier position does. -/
theorem find_zero_first (s : Text) (c : Int) (pos : Nat) (h : find s c 0 = some pos) :
    s[pos]? = some c ∧ ∀ k : Nat, k < pos → s[k]? ≠ some c := by
  have h1 : findIdx c s = some pos := by
    simpa [find] using h
  obtain ⟨pre, rest, e, hn, hl⟩ := findIdx_some_split c s pos h1
  subst e
  subst hl
  constructor
  · rw [List.getElem?_append_right (Nat.le_refl _)]
    simp
  · intro k hk e
    rw [List.getElem?_append_left hk] at e
    exact hn (List.getElem?_mem e)

theorem find_zero_of_first (s : Text) (c : Int) (i : Nat) (hi : s[i]? = some c)
    (hfirst : ∀ k : Nat, k < i → s[k]? ≠ some c) : find s c 0 = some i := by
  cases hf : find s c 0 with
  | none =>
    have h1 : findIdx c s = none := by
      simpa [find] using hf
    exact absurd (List.getElem?_mem hi) (not_mem_of_findIdx_none c s h1)
  | some p =>
    obtain ⟨hp, hpf⟩ := find_zero_first s c p hf
    have h1 : ¬ p < i := fun h => hfirst p h hp
    have h2 : ¬ i < p := fun h => hpf i h hi
    have : p = i := by omega
    rw [this]

theorem substitutionLoop_eq_map (table : UMap) (text : Text) :
    P25.substitutionLoop table text = text.map (replaceChar table) := by
  have gen : ∀ (acc : Text),
      text.foldl
        (fun encrypted ch =>
          encrypted ++ [match table.find ch with
            | some x => x
            | none => ch]) acc = acc ++ text.map (replaceChar table) := by
    induction text with
    | nil => simp
    | cons c cs ih =>
      intro acc
      simp only [List.foldl_cons, List.map_cons]
      rw [ih]
      cases hc : table.find c <;> simp [replaceChar, hc]
  simpa [P25.substitutionLoop] using gen []

theorem mapChars_of_total (step : Int → Option Int) (g : Int → Int) (text : Text)
    (h : ∀ c ∈ text, step c = some (g c)) : mapChars step text = some (text.map g) := by
  induction text with
  | nil => rfl
  | cons c cs ih =>
    simp [mapChars, h c (by simp), ih (fun d hd => h d (by simp [hd]))]

theorem wcharToChar_of_char (c : Int) (h : -128 ≤ c ∧ c ≤ 127) : wcharToChar c = c := by
  simp only [wcharToChar, toChar]
  split <;> omega

/-- With a cipher as long as the alphabet and a table that holds `cipher[i]` for every
`alphabet[i]`, the character that the search selects, `cipher[alphabet.find(c)]` or `c`
itself when it is not found, is the character that the table gives. -/
theorem search_lookup_eq_table (alphabet cipher : Text) (table : UMap)
    (hlen : cipher.length = alphabet.length)
    (hkeys : ∀ c, (table.find c).isSome = true ↔ c ∈ alphabet)
    (hval : ∀ (i : Nat) (a x : Int), alphabet[i]? = some a → cipher[i]? = some x →
      table.find a = some x)
    (c : Int) :
    (match find alphabet c 0 with
      | some pos => subscript cipher pos
      | none => some c) = some (replaceChar table c) := by
  cases hf : find alphabet c 0 with
  | none =>
    have h1 : findIdx c alphabet = none := by
      simpa [find] using hf
    have hc : c ∉ alphabet := not_mem_of_findIdx_none c alphabet h1
    have hnone : table.find c = none := by
      cases hq : table.find c with
      | none => rfl
      | some v =>
        have : (table.find c).isSome = true := by simp [hq]
        exact absurd ((hkeys c).mp this) hc
    simp [replaceChar, hnone]
  | some pos =>
    obtain ⟨hp, -⟩ := find_zero_first alphabet c pos hf
    have hpl : pos < cipher.length := by
      have := find_zero_lt _ _ _ hf
      omega
    have hx : cipher[pos]? = some cipher[pos] := List.getElem?_eq_getElem hpl
    have := hval pos c cipher[pos] hp hx
    simp [replaceChar, this, subscript_eq_getElem? _ _ hpl, hx]

theorem alphabet21_nodup : P21.alphabet.Nodup := by decide!

/-- C29, as the code has it: with a cipher of 128 characters that holds `Я` (U+042F) at
index 0, `encrypt("A", cipher)` of `2.1.cpp` returns the one character `'/'` (code 47, the
low byte of `Я`), while the table that `createSubstitutionTable` of `2.5.cpp` builds from
the same alphabet and cipher replaces `A` by `Я` (code 1071). -/
theorem narrow_and_table_texts_differ :
    (1071 :: P21.alphabet.drop 1).length = P21.alphabet.length ∧
    P21.alphabet.Nodup ∧
    P21.encrypt (cstr "A") (1071 :: P21.alphabet.drop 1) = some [47] ∧
    (P25.createSubstitutionTable P21.alphabet (1071 :: P21.alphabet.drop 1)).map
      (fun table => P25.substitutionLoop table (cstr "A")) = some [1071] := by
  decide!

/-- C29, amended: for every cipher as long as the alphabet of `2.1.cpp` and every text of
`char` values, `encrypt(text, cipher)` of `2.1.cpp` returns the text obtained by replacing
each character through the table of `createSubstitutionTable(alphabet, cipher)` of
`2.5.cpp` (a character without entry kept) with every character converted from `wchar_t`
to `char`, hence that very text when it holds `char` values only; for every alphabet and
every cipher of the same length, when the alphabet has no repeated character the search
`cipher[alphabet.find(c)]` (or `c` when not found) selects the character that the table
gives, and a character whose first index is `i` and whose last index is `j` is found at
`i` by the search and mapped to `cipher[j]` by the table. -/
theorem narrow_search_agrees_with_table (cipher text : Text)
    (hlen : cipher.length = P21.alphabet.length)
    (hchar : ∀ c ∈ text, -128 ≤ c ∧ c ≤ 127) :
    (∃ table : UMap, P25.createSubstitutionTable P21.alphabet cipher = some table ∧
      P21.encrypt text cipher = some ((P25.substitutionLoop table text).map wcharToChar) ∧
      ((∀ x ∈ P25.substitutionLoop table text, -128 ≤ x ∧ x ≤ 127) →
        P21.encrypt text cipher = some (P25.substitutionLoop table text))) ∧
    (∀ (alphabet cipher2 : Text), cipher2.length = alphabet.length →
      ∃ table2 : UMap, P25.createSubstitutionTable alphabet cipher2 = some table2 ∧
        (alphabet.Nodup → ∀ c : Int,
          (match find alphabet c 0 with
            | some pos => subscript cipher2 pos
            | none => some c) = some (replaceChar table2 c)) ∧
        (∀ (i j : Nat) (a x y : Int),
          alphabet[i]? = some a → (∀ k : Nat, k < i → alphabet[k]? ≠ some a) →
          alphabet[j]? = some a → (∀ k : Nat, j < k → alphabet[k]? ≠ some a) →
          cipher2[i]? = some x → cipher2[j]? = some y →
          find alphabet a 0 = some i ∧ subscript cipher2 i = some x ∧
            table2.find a = some y)) := by
  constructor
  · obtain ⟨t, ht, hkeys, -, hnd⟩ :=
      createSubstitutionTable_keys P21.alphabet cipher (by omega)
    have hval := hnd alphabet21_nodup
    have hstep : ∀ c ∈ text,
        P21.encryptChar cipher c = some (wcharToChar (replaceChar t c)) := by
      intro c hc
      have hb := hchar c hc
      by_cases h0 : 0 ≤ c
      · have e1 : charToWchar c = c := by
          simp only [charToWchar]
          omega
        have hs := search_lookup_eq_table P21.alphabet cipher t hlen
          hkeys hval c
        simp only [P21.encryptChar, e1]
        cases hf : find P21.alphabet c 0 with
        | none =>
          rw [hf] at hs
          simp only [Option.some.injEq] at hs
          rw [← hs, wcharToChar_of_char c hb]
        | some pos =>
          rw [hf] at hs
          simp only at hs
          simp [hs]
      · have hw : charToWchar c ∉ P21.alphabet := by
          intro hm
          have := alphabet21_codes _ hm
          simp only [charToWchar] at this
          omega
        have hcn : c ∉ P21.alphabet := by
          intro hm
          have := alphabet21_codes _ hm
          omega
        have hnone : t.find c = none := by
          cases hq : t.find c with
          | none => rfl
          | some v =>
            have : (t.find c).isSome = true := by simp [hq]
            exact absurd ((hkeys c).mp this) hcn
        simp [P21.encryptChar, find_zero_eq_none _ _ hw, replaceChar, hnone,
          wcharToChar_of_char c hb]
    have hmain : P21.encrypt text cipher =
        some ((P25.substitutionLoop t text).map wcharToChar) := by
      rw [encrypt21_eq_mapChars, substitutionLoop_eq_map, List.map_map]
      exact mapChars_of_total _ _ _ hstep
    refine ⟨t, ht, hmain, ?_⟩
    intro hx
    have e : (P25.substitutionLoop t text).map wcharToChar = P25.substitutionLoop t text := by
      conv_rhs => rw [← List.map_id (P25.substitutionLoop t text)]
      apply List.map_congr_left
      intro x hxm
      exact wcharToChar_of_char x (hx x hxm)
    rw [hmain, e]
  · intro alphabet cipher2 hlen2
    obtain ⟨t, ht, hkeys, hlast, hnd⟩ :=
      createSubstitutionTable_keys alphabet cipher2 (by omega)
    refine ⟨t, ht, ?_, ?_⟩
    · intro hn c
      exact search_lookup_eq_table alphabet cipher2 t hlen2 hkeys (hnd hn) c
    · intro i j a x y hia hfirst hja hjlast hix hjy
      have hil : i < cipher2.length := by
        obtain ⟨h, -⟩ := List.getElem?_eq_some.mp hix
        exact h
      exact ⟨find_zero_of_first alphabet a i hia hfirst,
        by rw [subscript_eq_getElem? _ _ hil, hix], hlast j a y hja hjy hjlast⟩

theorem narrow_search_agrees_with_table_witness :
    (P21.cipher1.length = P21.alphabet.length ∧
      (∀ c ∈ cstr "Привет, World 7!", -128 ≤ c ∧ c ≤ 127) ∧
      P21.encrypt (cstr "Привет, World 7!") P21.cipher1 = some (cstr "Привет, Jbeyq 2!")) ∧
    (∃ table : UMap, P25.createSubstitutionTable P21.alphabet P21.cipher1 = some table ∧
      P21.encrypt (cstr "Привет, World 7!") P21.cipher1 =
        some ((P25.substitutionLoop table (cstr "Привет, World 7!")).map wcharToChar) ∧
      ((∀ x ∈ P25.substitutionLoop table (cstr "Привет, World 7!"), -128 ≤ x ∧ x ≤ 127) →
        P21.encrypt (cstr "Привет, World 7!") P21.cipher1 =
          some (P25.substitutionLoop table (cstr "Привет, World 7!")))) ∧
    (∃ table2 : UMap, P25.createSubstitutionTable (cstr "AA") (cstr "XY") = some table2 ∧
      find (cstr "AA") 65 0 = some 0 ∧ subscript (cstr "XY") 0 = some 88 ∧
      table2.find 65 = some 89) :=
  ⟨by decide!,
    (narrow_search_agrees_with_table P21.cipher1 (cstr "Привет, World 7!")
      (by decide!) (by decide!)).1,
    by
      obtain ⟨t, ht, -, h⟩ :=
        (narrow_search_agrees_with_table P21.cipher1 [] (by decide!) (by decide)).2
          (cstr "AA") (cstr "XY") (by decide!)
      exact ⟨t, ht, h 0 1 65 88 89 (by decide!) (by decide) (by decide!)
        (fun k hk => by
          have h2 : (cstr "AA")[k]? = none := List.getElem?_eq_none (by
            have : (cstr "AA").length = 2 := by decide!
            omega)
          simp [h2])
        (by decide!) (by decide!)⟩⟩

/-! ## The claims on the split of the message and on the digits -/

theorem digitsValue_nonneg (ds : Text) (h : ∀ d ∈ ds, isdigit d = true) :
    0 ≤ digitsValue ds := by
  have gen : ∀ (acc : Int), 0 ≤ acc →
      0 ≤ ds.foldl (fun v d => v * 10 + (d - 48)) acc := by
    induction ds with
    | nil =>
      intro acc ha
      exact ha
    | cons d rest ih =>
      intro acc ha
      have hd : 48 ≤ d ∧ d ≤ 57 := by
        simpa [isdigit] using h d (by simp)
      simp only [List.foldl_cons]
      exact ih (fun x hx => h x (by simp [hx])) _ (by omega)
  exact gen 0 (Int.le_refl 0)

/-- C27: for every input `D1|D2|tail` with `D1` and `D2` non-empty runs of digits, `decrypt`
checks the length and the checksum of the whole of `tail` and decodes the whole of `tail`,
whether or not `tail` holds further `'|'` characters; and in what `encrypt` returns the
first two `'|'` are those behind the two numbers, so that the segment behind the second one
is the substituted text, whatever characters the text holds. -/
theorem decrypt_splits_at_first_two_pipes (self : SimpleSubstitutionCipher)
    (d1 d2 tail : Text)
    (h1 : d1 ≠ [] ∧ ∀ c ∈ d1, isdigit c = true) (h2 : d2 ≠ [] ∧ ∀ c ∈ d2, isdigit c = true) :
    self.decrypt (d1 ++ [pipe] ++ d2 ++ [pipe] ++ tail) =
      (if INT_MAX < digitsValue d1 then .error .stoiOutOfRange
        else if INT_MAX < digitsValue d2 then .error .stoiOutOfRange
        else if (tail.length : Int) ≠ digitsValue d1 then .error .lengthMismatch
        else if (calculateChecksum tail : Int) ≠ digitsValue d2 then .error .checksumMismatch
        else .ok (tail.map (replaceChar self.reverseSubstitutionMap))) ∧
    ∀ text : Text,
      find (self.encrypt text) pipe 0 =
        some (to_string (substitute self.substitutionMap text).length).length ∧
      find (self.encrypt text) pipe
          ((to_string (substitute self.substitutionMap text).length).length + 1) =
        some ((to_string (substitute self.substitutionMap text).length).length + 1 +
          (to_string (calculateChecksum (substitute self.substitutionMap text))).length) ∧
      substrFrom (self.encrypt text)
          ((to_string (substitute self.substitutionMap text).length).length + 1 +
            (to_string (calculateChecksum (substitute self.substitutionMap text))).length + 1) =
        substitute self.substitutionMap text := by
  constructor
  · rw [decrypt_fields self d1 d2 tail (pipe_not_mem_of_isdigit d1 h1.2)
      (pipe_not_mem_of_isdigit d2 h2.2)]
    have n1 := digitsValue_nonneg d1 h1.2
    have n2 := digitsValue_nonneg d2 h2.2
    have m1 : ¬ digitsValue d1 < INT_MIN := by
      simp only [INT_MIN]
      omega
    have m2 : ¬ digitsValue d2 < INT_MIN := by
      simp only [INT_MIN]
      omega
    simp only [decodeFields, stoi_of_digits d1 h1.1 h1.2, stoi_of_digits d2 h2.1 h2.2, m1, m2,
      false_or]
    by_cases b1 : INT_MAX < digitsValue d1
    · simp [b1]
    · by_cases b2 : INT_MAX < digitsValue d2
      · simp [b1, b2]
      · simp only [b1, b2, if_false]
        simp only [INT_MAX] at b1 b2
        have s1 : tail.length ≠ toSizeT (digitsValue d1) ↔
            (tail.length : Int) ≠ digitsValue d1 := by
          simp only [toSizeT]
          omega
        have s2 : calculateChecksum tail ≠ toUnsigned (digitsValue d2) ↔
            (calculateChecksum tail : Int) ≠ digitsValue d2 := by
          simp only [toUnsigned]
          omega
        by_cases c1 : (tail.length : Int) ≠ digitsValue d1
        · simp only [s1.mpr c1, c1, if_true, ne_eq, not_false_eq_true]
        · have c1b : ¬ (tail.length ≠ toSizeT (digitsValue d1)) := fun h => c1 (s1.mp h)
          by_cases c2 : (calculateChecksum tail : Int) ≠ digitsValue d2
          · simp only [c1b, c1, s2.mpr c2, c2, if_false, if_true, ne_eq, not_false_eq_true]
          · have c2b : ¬ (calculateChecksum tail ≠ toUnsigned (digitsValue d2)) :=
              fun h => c2 (s2.mp h)
            simp only [c1b, c1, c2b, c2, if_false, substitute_eq_map]
  · intro text
    have e : self.encrypt text =
        to_string (substitute self.substitutionMap text).length ++
          pipe :: (to_string (calculateChecksum (substitute self.substitutionMap text)) ++
            pipe :: substitute self.substitutionMap text) := by
      simp [SimpleSubstitutionCipher.encrypt]
    refine ⟨?_, ?_, ?_⟩
    · rw [e]
      exact find_first _ _ (pipe_not_mem_to_string _)
    · rw [e]
      exact find_second _ _ _ (pipe_not_mem_to_string _)
    · rw [e, show ∀ (a b c : Text), a ++ pipe :: (b ++ pipe :: c) =
        (a ++ [pipe] ++ b ++ [pipe]) ++ c from fun a b c => by simp]
      exact List.drop_left' (by simp only [List.length_append, List.length_singleton])

theorem decrypt_splits_at_first_two_pipes_witness :
    (cstr "3" ++ [pipe] ++ cstr "255" ++ [pipe] ++ cstr "A|B" = cstr "3|255|A|B" ∧
      Cipher.decrypt (cstr "3|255|A|B") = .ok (cstr "N|O")) ∧
    Cipher.new.decrypt (cstr "3" ++ [pipe] ++ cstr "255" ++ [pipe] ++ cstr "A|B") =
      (if INT_MAX < digitsValue (cstr "3") then .error .stoiOutOfRange
        else if INT_MAX < digitsValue (cstr "255") then .error .stoiOutOfRange
        else if ((cstr "A|B").length : Int) ≠ digitsValue (cstr "3") then .error .lengthMismatch
        else if (calculateChecksum (cstr "A|B") : Int) ≠ digitsValue (cstr "255") then
          .error .checksumMismatch
        else .ok ((cstr "A|B").map (replaceChar Cipher.new.reverseSubstitutionMap))) :=
  ⟨by decide!,
    (decrypt_splits_at_first_two_pipes Cipher.new (cstr "3") (cstr "255") (cstr "A|B")
      (by decide!) (by decide!)).1⟩

theorem mapChars_congr (f g : Int → Option Int) (text : Text) (h : ∀ c ∈ text, f c = g c) :
    mapChars f text = mapChars g text := by
  induction text with
  | nil => rfl
  | cons c cs ih =>
    simp only [mapChars, h c (by simp), ih (fun d hd => h d (by simp [hd]))]

theorem digit_canonical (c : Int) (h : isdigit c = true) :
    ∃ d : Nat, d < 10 ∧ c = 48 + (d : Int) := by
  have hc : 48 ≤ c ∧ c ≤ 57 := by
    simpa [isdigit] using h
  exact ⟨(c - 48).toNat, by omega, by omega⟩

theorem step_212_then_211 : ∀ d : Nat, d < 10 →
    (P22.step_212 (48 + (d : Int))).bind P22.step_211 = some (48 + (d : Int)) := by
  decide!

/-- C30: in `2.2.cpp`, on every text without a digit character `encrypt_212` and
`encrypt_213` return the same text, and on every text of digit characters only
`encrypt_211(encrypt_212(text))` is `text` again. -/
theorem encrypt_212_213_differ_on_digits_only (text : Text) :
    ((∀ c ∈ text, isdigit c = false) → P22.encrypt_212 text = P22.encrypt_213 text) ∧
    ((∀ c ∈ text, isdigit c = true) →
      (P22.encrypt_212 text).bind P22.encrypt_211 = some text) := by
  constructor
  · intro h
    apply mapChars_congr
    intro c hc
    simp [P22.step_212, P22.step_213, h c hc]
  · intro h
    induction text with
    | nil => rfl
    | cons c cs ih =>
      obtain ⟨d, hd, rfl⟩ := digit_canonical c (h c (by simp))
      have h1 := step_212_then_211 d hd
      have h2 := ih (fun x hx => h x (by simp [hx]))
      simp only [P22.encrypt_212, P22.encrypt_211] at h2 ⊢
      simp only [mapChars]
      cases s1 : P22.step_212 (48 + (d : Int)) with
      | none => simp [s1] at h1
      | some x =>
        simp only [s1, Option.some_bind] at h1
        cases s2 : mapChars P22.step_212 cs with
        | none => simp [s2] at h2
        | some xs =>
          simp only [s2, Option.some_bind] at h2
          simp [mapChars, h1, h2]

theorem encrypt_212_213_differ_on_digits_only_witness :
    (P22.encrypt_212 (cstr "shift, Сдвиг!") = P22.encrypt_213 (cstr "shift, Сдвиг!") ∧
      P22.encrypt_212 (cstr "7") ≠ P22.encrypt_213 (cstr "7")) ∧
    (P22.encrypt_212 (cstr "2019")).bind P22.encrypt_211 = some (cstr "2019") :=
  ⟨⟨(encrypt_212_213_differ_on_digits_only (cstr "shift, Сдвиг!")).1 (by decide!), by decide!⟩,
    (encrypt_212_213_differ_on_digits_only (cstr "2019")).2 (by decide!)⟩

end Kursovaya
